import Mathlib

/-!
Shallow embedding of the rnb text-classification pipeline
(tokenizer, Bernoulli and Multinomial Naive Bayes classifiers,
confusion-matrix metrics), together with proofs of the behavioural
claims about it.

Conventions of the embedding:
- text is modelled as a list of characters;
- the tokenizer punctuation configuration is modelled as a character
  predicate, matching the character-class regex the program is built
  with (each matched character is replaced by a space-padded copy of
  itself, the replacement of the regex crate);
- machine floating point values are modelled as exact real numbers;
- a panicking computation (out-of-bounds slice index, failed assert,
  unwrap of an empty maximum) is modelled as an Option-valued one
  returning none.
-/

/-- Unicode white-space characters: the character set matched by the
regex class of white-space and by the standard whitespace test used by
trim and by split. -/
def wsChars : List Char :=
  [' ', '\t', '\n', '\u000B', '\u000C', '\r', '\u0085', ' ',
   ' ', ' ', ' ', ' ', ' ', ' ', ' ',
   ' ', ' ', ' ', ' ', ' ', ' ', ' ',
   ' ', ' ', '　']

/-- Whether a character is white space. -/
def rustWs (c : Char) : Bool := wsChars.contains c

/-- First step of Tokenizer.normalize: every character of the
punctuation set is replaced by a space-padded copy of itself (the
replace-all of the punctuation character class with a padded capture). -/
def padPunct (p : Char → Bool) : List Char → List Char
  | [] => []
  | c :: t => (if p c then [' ', c, ' '] else [c]) ++ padPunct p t

/-- Second step of Tokenizer.normalize: every run of two or more
white-space characters is replaced by a single space (the replace-all
of the two-or-more white-space regex by one space, leftmost first,
greedy). -/
def collapseWs : List Char → List Char
  | [] => []
  | [c] => [c]
  | c1 :: c2 :: t =>
    if rustWs c1 && rustWs c2 then ' ' :: collapseWs (t.dropWhile rustWs)
    else c1 :: collapseWs (c2 :: t)
termination_by l => l.length
decreasing_by
  · simp only [List.length_cons]
    have h := (List.dropWhile_sublist (l := t) rustWs).length_le
    omega
  · simp only [List.length_cons]
    omega

/-- Third step of Tokenizer.normalize: leading and trailing white
space is removed. -/
def trimWs (l : List Char) : List Char :=
  ((l.dropWhile rustWs).reverse.dropWhile rustWs).reverse

/-- Tokenizer.normalize: pad punctuation, collapse white-space runs,
trim. -/
def normalizeText (p : Char → Bool) (l : List Char) : List Char :=
  trimWs (collapseWs (padPunct p l))

theorem collapseWs_nil : collapseWs [] = [] := by simp [collapseWs]

theorem collapseWs_single (c : Char) : collapseWs [c] = [c] := by simp [collapseWs]

theorem collapseWs_cons_of_not_ws (c : Char) (t : List Char)
    (h : rustWs c = false) : collapseWs (c :: t) = c :: collapseWs t := by
  cases t with
  | nil => simp [collapseWs]
  | cons c2 t2 => simp [collapseWs, h]

theorem collapseWs_cons_cons_ws (c d : Char) (t : List Char)
    (hc : rustWs c = true) (hd : rustWs d = true) :
    collapseWs (c :: d :: t) = ' ' :: collapseWs (t.dropWhile rustWs) := by
  simp [collapseWs, hc, hd]

theorem collapseWs_cons_ws_of_head_not_ws (c d : Char) (t : List Char)
    (hc : rustWs c = true) (hd : rustWs d = false) :
    collapseWs (c :: d :: t) = c :: collapseWs (d :: t) := by
  simp [collapseWs, hc, hd]

/-- Collapsing a list that starts with a space: the space is kept and
the rest of the leading white-space run is dropped. -/
theorem collapseWs_space_cons (t : List Char) :
    collapseWs (' ' :: t) = ' ' :: collapseWs (t.dropWhile rustWs) := by
  cases t with
  | nil => simp [collapseWs]
  | cons d t2 =>
    cases hd : rustWs d with
    | true =>
      rw [collapseWs_cons_cons_ws ' ' d t2 rfl hd]
      simp [List.dropWhile_cons, hd]
    | false =>
      rw [collapseWs_cons_ws_of_head_not_ws ' ' d t2 rfl hd]
      simp [List.dropWhile_cons, hd]

@[simp] theorem rustWs_space : rustWs ' ' = true := rfl

/-- Whether the padded form of a text starts with a white-space
character: it does exactly when the text starts with a punctuation
character (padding puts a space first) or with white space. -/
def headWsPad (p : Char → Bool) : List Char → Bool
  | [] => false
  | d :: _ => p d || rustWs d

/-- Fused structural recursion computing, for a text t, the pair of
collapseWs (padPunct p t) and of collapseWs of the same list with its
leading white space removed. -/
def cpD (p : Char → Bool) : List Char → (List Char × List Char)
  | [] => ([], [])
  | c :: t =>
    let r := cpD p t
    if p c then
      if rustWs c then (' ' :: r.2, r.2)
      else (' ' :: c :: ' ' :: r.2, c :: ' ' :: r.2)
    else if rustWs c then
      ((if headWsPad p t then ' ' :: r.2 else c :: r.2), r.2)
    else (c :: r.1, c :: r.1)

theorem cpD_spec (p : Char → Bool) : ∀ t : List Char,
    (cpD p t).1 = collapseWs (padPunct p t) ∧
    (cpD p t).2 = collapseWs ((padPunct p t).dropWhile rustWs) := by
  intro t
  induction t with
  | nil => simp [cpD, padPunct, collapseWs_nil]
  | cons c t ih =>
    obtain ⟨ih1, ih2⟩ := ih
    cases hp : p c with
    | true =>
      cases hw : rustWs c with
      | true =>
        constructor
        · simp only [cpD, hp, hw, if_true, padPunct, List.cons_append,
            List.nil_append]
          rw [collapseWs_cons_cons_ws ' ' c _ rfl hw,
            List.dropWhile_cons_of_pos (by simp), ih2]
        · simp only [cpD, hp, hw, if_true, padPunct, List.cons_append,
            List.nil_append]
          rw [List.dropWhile_cons_of_pos (by simp),
            List.dropWhile_cons_of_pos (by simp [hw]),
            List.dropWhile_cons_of_pos (by simp), ih2]
      | false =>
        constructor
        · simp only [cpD, hp, hw, if_true, Bool.false_eq_true, if_false,
            padPunct, List.cons_append, List.nil_append]
          rw [collapseWs_cons_ws_of_head_not_ws ' ' c _ rfl hw,
            collapseWs_cons_of_not_ws c _ hw, collapseWs_space_cons, ih2]
        · simp only [cpD, hp, hw, if_true, Bool.false_eq_true, if_false,
            padPunct, List.cons_append, List.nil_append]
          rw [List.dropWhile_cons_of_pos (by simp),
            List.dropWhile_cons_of_neg (by simp [hw]),
            collapseWs_cons_of_not_ws c _ hw, collapseWs_space_cons, ih2]
    | false =>
      cases hw : rustWs c with
      | true =>
        have hdrop : (padPunct p (c :: t)).dropWhile rustWs
            = (padPunct p t).dropWhile rustWs := by
          simp only [padPunct, hp, Bool.false_eq_true, if_false,
            List.cons_append, List.nil_append]
          rw [List.dropWhile_cons_of_pos (by simp [hw])]
        constructor
        · simp only [cpD, hp, hw, Bool.false_eq_true, if_false, if_true,
            padPunct, List.cons_append, List.nil_append]
          cases t with
          | nil =>
            simp [cpD, headWsPad, padPunct, collapseWs_single, collapseWs_nil]
          | cons d t2 =>
            cases hpd : p d with
            | true =>
              simp only [headWsPad, hpd, Bool.true_or, if_true, padPunct,
                List.cons_append, List.nil_append]
              rw [collapseWs_cons_cons_ws c ' ' _ hw rfl, ih2]
              simp only [padPunct, hpd, if_true, List.cons_append,
                List.nil_append]
              rw [List.dropWhile_cons_of_pos (by simp)]
            | false =>
              cases hwd : rustWs d with
              | true =>
                simp only [headWsPad, hpd, hwd, Bool.false_or, if_true,
                  Bool.false_eq_true, if_false, padPunct, List.cons_append,
                  List.nil_append]
                rw [collapseWs_cons_cons_ws c d _ hw hwd, ih2]
                simp only [padPunct, hpd, Bool.false_eq_true, if_false,
                  List.cons_append, List.nil_append]
                rw [List.dropWhile_cons_of_pos (by simp [hwd])]
              | false =>
                simp only [headWsPad, hpd, hwd, Bool.false_or,
                  Bool.false_eq_true, if_false, padPunct, List.cons_append,
                  List.nil_append]
                rw [collapseWs_cons_ws_of_head_not_ws c d _ hw hwd, ih2]
                simp only [padPunct, hpd, Bool.false_eq_true, if_false,
                  List.cons_append, List.nil_append]
                rw [List.dropWhile_cons_of_neg (by simp [hwd])]
        · simp only [cpD, hp, hw, Bool.false_eq_true, if_false, if_true]
          rw [hdrop, ih2]
      | false =>
        constructor
        · simp only [cpD, hp, hw, Bool.false_eq_true, if_false, padPunct,
            List.cons_append, List.nil_append]
          rw [collapseWs_cons_of_not_ws c _ hw, ih1]
        · simp only [cpD, hp, hw, Bool.false_eq_true, if_false, padPunct,
            List.cons_append, List.nil_append]
          rw [List.dropWhile_cons_of_neg (by simp [hw]),
            collapseWs_cons_of_not_ws c _ hw, ih1]

/-- Side condition on single characters of a normalized text: a
punctuation character that is white space can only be the plain
space. -/
def wsOK (p : Char → Bool) (c : Char) : Prop :=
  p c = true → rustWs c = true → c = ' '

/-- Side condition on adjacent characters of a normalized text: no two
adjacent white-space characters, and a non-white punctuation character
only sits next to plain spaces. -/
def adjOK (p : Char → Bool) (a b : Char) : Prop :=
  ¬(rustWs a = true ∧ rustWs b = true) ∧
  (p a = true ∧ rustWs a = false → b = ' ') ∧
  (p b = true ∧ rustWs b = false → a = ' ')

theorem adjOK_symm {p : Char → Bool} {a b : Char} (h : adjOK p a b) :
    adjOK p b a := by
  obtain ⟨h1, h2, h3⟩ := h
  exact ⟨fun hx => h1 ⟨hx.2, hx.1⟩, h3, h2⟩

/-- The shape invariant of normalized text. -/
def NormText (p : Char → Bool) (l : List Char) : Prop :=
  List.Chain' (adjOK p) l ∧ ∀ c ∈ l, wsOK p c

theorem cpD_snd_head_of_headWsPad_false (p : Char → Bool) (t : List Char)
    (h : headWsPad p t = false) :
    ∀ x, (cpD p t).2.head? = some x → p x = false ∧ rustWs x = false := by
  cases t with
  | nil => intro x hx; simp [cpD] at hx
  | cons d t2 =>
    intro x hx
    simp only [headWsPad, Bool.or_eq_false_iff] at h
    simp only [cpD, h.1, h.2, Bool.false_eq_true, if_false] at hx
    simp only [List.head?_cons, Option.some.injEq] at hx
    subst hx
    exact h

/-- Shape invariant of the two collapse results: adjacency conditions
hold, the white-dropped variant starts with a non-white character, the
padded variant never starts with a non-white punctuation character,
and every white punctuation character in either is a plain space. -/
theorem cpD_inv (p : Char → Bool) : ∀ t : List Char,
    List.Chain' (adjOK p) (cpD p t).1 ∧ List.Chain' (adjOK p) (cpD p t).2 ∧
    (∀ h, (cpD p t).1.head? = some h → p h = true → rustWs h = true) ∧
    (∀ h, (cpD p t).2.head? = some h → rustWs h = false) ∧
    (∀ c ∈ (cpD p t).1, wsOK p c) ∧ (∀ c ∈ (cpD p t).2, wsOK p c) := by
  intro t
  induction t with
  | nil => simp [cpD]
  | cons c t ih =>
    obtain ⟨ih1, ih2, ihh1, ihh2, ihm1, ihm2⟩ := ih
    have hspace : ∀ y, (cpD p t).2.head? = some y → adjOK p ' ' y := by
      intro y hy
      refine ⟨fun hx => by simp [ihh2 y hy] at hx, fun hx => by simp at hx,
        fun _ => rfl⟩
    cases hp : p c with
    | true =>
      cases hw : rustWs c with
      | true =>
        simp only [cpD, hp, hw, if_true]
        refine ⟨?_, ih2, ?_, ihh2, ?_, ihm2⟩
        · exact List.chain'_cons'.2 ⟨fun y hy => hspace y hy, ih2⟩
        · intro h hh
          simp only [List.head?_cons, Option.some.injEq] at hh
          subst hh; intro _; rfl
        · intro x hx
          rcases List.mem_cons.1 hx with h | h
          · subst h; intro _ _; rfl
          · exact ihm2 x h
      | false =>
        simp only [cpD, hp, hw, if_true, Bool.false_eq_true, if_false]
        have hc_sp : adjOK p c ' ' := by
          refine ⟨fun hx => by simp [hw] at hx, fun _ => rfl,
            fun hx => by simp at hx⟩
        have hchain2 : List.Chain' (adjOK p) (c :: ' ' :: (cpD p t).2) := by
          refine List.chain'_cons'.2 ⟨?_, List.chain'_cons'.2 ⟨hspace, ih2⟩⟩
          intro y hy
          simp only [List.head?_cons, Option.mem_def, Option.some.injEq] at hy
          subst hy; exact hc_sp
        have hmem2 : ∀ x ∈ c :: ' ' :: (cpD p t).2, wsOK p x := by
          intro x hx
          rcases List.mem_cons.1 hx with h | h
          · subst h; intro _ hwx; rw [hwx] at hw; cases hw
          rcases List.mem_cons.1 h with h2 | h2
          · subst h2; intro _ _; rfl
          · exact ihm2 x h2
        refine ⟨?_, hchain2, ?_, ?_, ?_, hmem2⟩
        · refine List.chain'_cons'.2 ⟨?_, hchain2⟩
          intro y hy
          simp only [List.head?_cons, Option.mem_def, Option.some.injEq] at hy
          subst hy
          exact ⟨fun hx => by simp [hw] at hx, fun hx => by simp at hx,
            fun _ => rfl⟩
        · intro h hh
          simp only [List.head?_cons, Option.some.injEq] at hh
          subst hh; intro _; rfl
        · intro h hh
          simp only [List.head?_cons, Option.some.injEq] at hh
          subst hh; exact hw
        · intro x hx
          rcases List.mem_cons.1 hx with h | h
          · subst h; intro _ _; rfl
          · exact hmem2 x h
    | false =>
      cases hw : rustWs c with
      | true =>
        simp only [cpD, hp, hw, Bool.false_eq_true, if_false, if_true]
        cases hhd : headWsPad p t with
        | true =>
          simp only [if_true]
          refine ⟨List.chain'_cons'.2 ⟨hspace, ih2⟩, ih2, ?_, ihh2, ?_, ihm2⟩
          · intro h hh
            simp only [List.head?_cons, Option.some.injEq] at hh
            subst hh; intro _; rfl
          · intro x hx
            rcases List.mem_cons.1 hx with h | h
            · subst h; intro _ _; rfl
            · exact ihm2 x h
        | false =>
          simp only [Bool.false_eq_true, if_false]
          refine ⟨?_, ih2, ?_, ihh2, ?_, ihm2⟩
          · refine List.chain'_cons'.2 ⟨?_, ih2⟩
            intro y hy
            have hy2 := cpD_snd_head_of_headWsPad_false p t hhd y hy
            exact ⟨fun hx => by simp [hy2.2] at hx,
              fun hx => by simp [hp] at hx, fun hx => by simp [hy2.1] at hx⟩
          · intro h hh
            simp only [List.head?_cons, Option.some.injEq] at hh
            subst hh; intro hpc; rw [hpc] at hp; cases hp
          · intro x hx
            rcases List.mem_cons.1 hx with h | h
            · subst h; intro hpc; rw [hpc] at hp; cases hp
            · exact ihm2 x h
      | false =>
        simp only [cpD, hp, hw, Bool.false_eq_true, if_false]
        have hchain : List.Chain' (adjOK p) (c :: (cpD p t).1) := by
          refine List.chain'_cons'.2 ⟨?_, ih1⟩
          intro y hy
          refine ⟨fun hx => by simp [hw] at hx,
            fun hx => by simp [hp] at hx, ?_⟩
          intro hx
          have := ihh1 y hy hx.1
          rw [hx.2] at this; cases this
        have hmem : ∀ x ∈ c :: (cpD p t).1, wsOK p x := by
          intro x hx
          rcases List.mem_cons.1 hx with h | h
          · subst h; intro hpc; rw [hpc] at hp; cases hp
          · exact ihm1 x h
        refine ⟨hchain, hchain, ?_, ?_, hmem, hmem⟩
        · intro h hh
          simp only [List.head?_cons, Option.some.injEq] at hh
          subst hh; intro hpc; rw [hpc] at hp; cases hp
        · intro h hh
          simp only [List.head?_cons, Option.some.injEq] at hh
          subst hh; exact hw

/-- The space the padding step adds in front of a text: one space when
the text starts with a non-white punctuation character. -/
def lpB (p : Char → Bool) : List Char → List Char
  | [] => []
  | c :: _ => if p c && !rustWs c then [' '] else []

/-- The space the padding step adds at the end of a text. -/
def rpB (p : Char → Bool) (l : List Char) : List Char := lpB p l.reverse

theorem rpB_nil (p : Char → Bool) : rpB p [] = [] := rfl

theorem rpB_cons_of_ne_nil (p : Char → Bool) (c : Char) (t : List Char)
    (h : t ≠ []) : rpB p (c :: t) = rpB p t := by
  unfold rpB
  rw [List.reverse_cons]
  cases ht : t.reverse with
  | nil => exact absurd (by simpa using ht) h
  | cons d t2 => simp [lpB]

theorem rpB_single (p : Char → Bool) (c : Char) :
    rpB p [c] = if p c && !rustWs c then [' '] else [] := rfl

theorem normText_tail {p : Char → Bool} {c : Char} {t : List Char}
    (h : NormText p (c :: t)) : NormText p t :=
  ⟨(List.chain'_cons'.1 h.1).2, fun x hx => h.2 x (List.mem_cons_of_mem c hx)⟩

theorem normText_head_adj {p : Char → Bool} {c : Char} {t : List Char}
    (h : NormText p (c :: t)) : ∀ y, t.head? = some y → adjOK p c y :=
  fun y hy => (List.chain'_cons'.1 h.1).1 y hy

/-- On a text satisfying the shape invariant, padding then collapsing
only adds the boundary spaces. -/
theorem cpD_fst_of_norm (p : Char → Bool) :
    ∀ n, ∀ y : List Char, y.length ≤ n → NormText p y →
    (cpD p y).1 = lpB p y ++ y ++ rpB p y := by
  intro n
  induction n with
  | zero =>
    intro y hlen _
    have hy : y = [] := List.length_eq_zero.1 (Nat.le_zero.1 hlen)
    subst hy; simp [cpD, lpB, rpB_nil]
  | succ n ih =>
    -- the white-dropped component on a text with a non-white head,
    -- derived from the induction hypothesis
    have hb : ∀ m : List Char, m.length ≤ n → NormText p m →
        (∀ h, m.head? = some h → rustWs h = false) →
        (cpD p m).2 = m ++ rpB p m := by
      intro m hlen hnorm hhead
      cases m with
      | nil => simp [cpD, rpB_nil]
      | cons c t =>
        have hw : rustWs c = false := hhead c rfl
        have ha := ih (c :: t) hlen hnorm
        cases hp : p c with
        | true =>
          have h1 : (cpD p (c :: t)).1 = ' ' :: (cpD p (c :: t)).2 := by
            simp [cpD, hp, hw]
          rw [h1] at ha
          have hlp : lpB p (c :: t) = [' '] := by simp [lpB, hp, hw]
          rw [hlp] at ha
          simpa using ha
        | false =>
          have h1 : (cpD p (c :: t)).1 = (cpD p (c :: t)).2 := by
            simp [cpD, hp, hw]
          rw [h1] at ha
          have hlp : lpB p (c :: t) = [] := by simp [lpB, hp]
          rw [hlp] at ha
          simpa using ha
    intro y hlen hnorm
    cases y with
    | nil => simp [cpD, lpB, rpB_nil]
    | cons c t =>
      have hlent : t.length ≤ n := by simpa using hlen
      have hnt : NormText p t := normText_tail hnorm
      have hadj := normText_head_adj hnorm
      cases hp : p c with
      | false =>
        cases hw : rustWs c with
        | false =>
          -- plain character: kept verbatim
          have h1 : (cpD p (c :: t)).1 = c :: (cpD p t).1 := by
            simp [cpD, hp, hw]
          have hlpt : lpB p t = [] := by
            cases t with
            | nil => rfl
            | cons d t2 =>
              cases hpd : p d with
              | false => simp [lpB, hpd]
              | true =>
                cases hwd : rustWs d with
                | true => simp [lpB, hpd, hwd]
                | false =>
                  have := (hadj d rfl).2.2 ⟨hpd, hwd⟩
                  rw [this] at hw
                  simp at hw
          rw [h1, ih t hlent hnt, hlpt]
          cases t with
          | nil => simp [lpB, hp, rpB_single, rpB_nil]
          | cons d t2 =>
            rw [rpB_cons_of_ne_nil p c (d :: t2) (by simp)]
            simp [lpB, hp]
        | true =>
          -- lone white-space character
          cases t with
          | nil =>
            simp [cpD, headWsPad, lpB, hp, hw, rpB_single]
          | cons d t2 =>
            have hwd : rustWs d = false := by
              by_contra hx
              exact (hadj d rfl).1 ⟨hw, by simpa using hx⟩
            have h2 : (cpD p (c :: d :: t2)).2 = (cpD p (d :: t2)).2 := by
              simp [cpD, hp, hw]
            have hb2 : (cpD p (d :: t2)).2 = (d :: t2) ++ rpB p (d :: t2) :=
              hb (d :: t2) hlent hnt (by intro h hh; cases hh; exact hwd)
            cases hpd : p d with
            | true =>
              have hc : c = ' ' := (hadj d rfl).2.2 ⟨hpd, hwd⟩
              have h1 : (cpD p (c :: d :: t2)).1
                  = ' ' :: (cpD p (d :: t2)).2 := by
                simp [cpD, hp, hw, headWsPad, hpd]
              rw [h1, hb2, hc]
              rw [rpB_cons_of_ne_nil p ' ' (d :: t2) (by simp)]
              simp [lpB, rustWs_space]
            | false =>
              have h1 : (cpD p (c :: d :: t2)).1
                  = c :: (cpD p (d :: t2)).2 := by
                simp [cpD, hp, hw, headWsPad, hpd, hwd]
              rw [h1, hb2]
              rw [rpB_cons_of_ne_nil p c (d :: t2) (by simp)]
              simp [lpB, hp, hw]
      | true =>
        cases hw : rustWs c with
        | true =>
          -- a white punctuation character must be the plain space
          have hc : c = ' ' := hnorm.2 c (List.mem_cons_self c t) hp hw
          have h1 : (cpD p (c :: t)).1 = ' ' :: (cpD p t).2 := by
            simp [cpD, hp, hw]
          cases t with
          | nil => rw [h1]; simp [cpD, lpB, hp, hw, hc, rpB_single, hw]
          | cons d t2 =>
            have hwd : rustWs d = false := by
              by_contra hx
              exact (hadj d rfl).1 ⟨hw, by simpa using hx⟩
            have hb2 : (cpD p (d :: t2)).2 = (d :: t2) ++ rpB p (d :: t2) :=
              hb (d :: t2) hlent hnt (by intro h hh; cases hh; exact hwd)
            rw [h1, hb2, hc]
            rw [rpB_cons_of_ne_nil p ' ' (d :: t2) (by simp)]
            simp [lpB, hp, hw, rustWs_space]
        | false =>
          -- non-white punctuation character: space-padded on both sides
          have h1 : (cpD p (c :: t)).1 = ' ' :: c :: ' ' :: (cpD p t).2 := by
            simp [cpD, hp, hw]
          have hlpy : lpB p (c :: t) = [' '] := by simp [lpB, hp, hw]
          cases t with
          | nil =>
            rw [h1]; simp [cpD, hlpy, rpB_single, hp, hw]
          | cons d t2 =>
            have hd : d = ' ' := (hadj d rfl).2.1 ⟨hp, hw⟩
            subst hd
            have h2 : (cpD p (' ' :: t2)).2 = (cpD p t2).2 := by
              cases hps : p ' ' with
              | true => simp [cpD, hps, rustWs_space]
              | false => simp [cpD, hps, rustWs_space]
            have hnt2 : NormText p t2 := normText_tail hnt
            have hlent2 : t2.length ≤ n := by
              simp only [List.length_cons] at hlent
              omega
            have hwd2 : ∀ h, t2.head? = some h → rustWs h = false := by
              intro h hh
              by_contra hx
              exact (normText_head_adj hnt h hh).1 ⟨rustWs_space, by simpa using hx⟩
            have hb2 : (cpD p t2).2 = t2 ++ rpB p t2 :=
              hb t2 (le_trans hlent2 (Nat.le_refl n)) hnt2 hwd2
            rw [h1, h2, hb2, hlpy]
            cases t2 with
            | nil => simp [rpB, lpB, rustWs_space]
            | cons e t3 =>
              rw [rpB_cons_of_ne_nil p c (' ' :: e :: t3) (by simp),
                rpB_cons_of_ne_nil p ' ' (e :: t3) (by simp)]
              simp

theorem head?_dropWhile_false {α : Type} (p : α → Bool) :
    ∀ l : List α, ∀ h, (l.dropWhile p).head? = some h → p h = false := by
  intro l
  induction l with
  | nil => intro h hh; simp at hh
  | cons a t ih =>
    intro h hh
    cases hpa : p a with
    | true => rw [List.dropWhile_cons_of_pos hpa] at hh; exact ih h hh
    | false =>
      rw [List.dropWhile_cons_of_neg (by simp [hpa])] at hh
      simp only [List.head?_cons, Option.some.injEq] at hh
      subst hh; exact hpa

theorem dropWhile_eq_self_of_head {α : Type} (p : α → Bool) (l : List α)
    (h : ∀ x, l.head? = some x → p x = false) : l.dropWhile p = l := by
  cases l with
  | nil => rfl
  | cons a t => exact List.dropWhile_cons_of_neg (by simp [h a rfl])

theorem trimWs_space_cons (z : List Char) : trimWs (' ' :: z) = trimWs z := by
  unfold trimWs
  rw [List.dropWhile_cons_of_pos (by simp)]

theorem trimWs_append_space (z : List Char) :
    trimWs (z ++ [' ']) = trimWs z := by
  unfold trimWs
  rw [List.dropWhile_append]
  cases hw : z.dropWhile rustWs with
  | nil => simp
  | cons d t =>
    simp only [hw, List.isEmpty_cons, Bool.false_eq_true, if_false]
    rw [List.reverse_append]
    simp only [List.reverse_cons, List.reverse_nil, List.nil_append,
      List.singleton_append]
    rw [List.dropWhile_cons_of_pos (by simp)]

theorem trimWs_wrap (a b z : List Char) (ha : a = [] ∨ a = [' '])
    (hb : b = [] ∨ b = [' ']) : trimWs (a ++ (z ++ b)) = trimWs z := by
  have hz : trimWs (z ++ b) = trimWs z := by
    rcases hb with h | h
    · rw [h, List.append_nil]
    · rw [h, trimWs_append_space]
  rcases ha with h | h
  · rw [h, List.nil_append, hz]
  · rw [h, List.singleton_append, trimWs_space_cons, hz]

theorem trimWs_idem (z : List Char) : trimWs (trimWs z) = trimWs z := by
  have hu : ∀ x, (z.dropWhile rustWs).head? = some x → rustWs x = false :=
    head?_dropWhile_false rustWs z
  have hvpre :
      ((z.dropWhile rustWs).reverse.dropWhile rustWs).reverse
        ++ ((z.dropWhile rustWs).reverse.takeWhile rustWs).reverse
        = z.dropWhile rustWs := by
    rw [← List.reverse_append, List.takeWhile_append_dropWhile,
      List.reverse_reverse]
  have hhead : ∀ x, (trimWs z).head? = some x → rustWs x = false := by
    intro x hx
    have hx2 : ((z.dropWhile rustWs).reverse.dropWhile rustWs).reverse.head?
        = some x := hx
    apply hu
    rw [← hvpre, List.head?_append, hx2]
    rfl
  show (((trimWs z).dropWhile rustWs).reverse.dropWhile rustWs).reverse
      = trimWs z
  rw [dropWhile_eq_self_of_head rustWs (trimWs z) hhead]
  have hrev : (trimWs z).reverse
      = (z.dropWhile rustWs).reverse.dropWhile rustWs := by
    unfold trimWs
    rw [List.reverse_reverse]
  rw [hrev,
    dropWhile_eq_self_of_head rustWs _
      (head?_dropWhile_false rustWs (z.dropWhile rustWs).reverse)]
  rfl

theorem chain'_adjOK_dropWhile {p : Char → Bool} (q : Char → Bool)
    {l : List Char} (h : List.Chain' (adjOK p) l) :
    List.Chain' (adjOK p) (l.dropWhile q) := by
  have hsplit := List.takeWhile_append_dropWhile (p := q) (l := l)
  rw [← hsplit] at h
  exact (List.chain'_append.1 h).2.1

theorem chain'_adjOK_reverse {p : Char → Bool} {l : List Char}
    (h : List.Chain' (adjOK p) l) : List.Chain' (adjOK p) l.reverse := by
  rw [List.chain'_reverse]
  exact List.Chain'.imp (fun a b hab => adjOK_symm hab) h

theorem normText_trim {p : Char → Bool} {l : List Char}
    (h : NormText p l) : NormText p (trimWs l) := by
  constructor
  · exact chain'_adjOK_reverse
      (chain'_adjOK_dropWhile rustWs
        (chain'_adjOK_reverse (chain'_adjOK_dropWhile rustWs h.1)))
  · intro c hc
    apply h.2 c
    unfold trimWs at hc
    rw [List.mem_reverse] at hc
    have hc2 := (List.dropWhile_sublist rustWs).subset hc
    rw [List.mem_reverse] at hc2
    exact (List.dropWhile_sublist rustWs).subset hc2

theorem lpB_cases (p : Char → Bool) (l : List Char) :
    lpB p l = [] ∨ lpB p l = [' '] := by
  cases l with
  | nil => exact Or.inl rfl
  | cons c t =>
    unfold lpB
    cases h : p c && !rustWs c with
    | true => simp [h]
    | false => simp [h]

theorem rpB_cases (p : Char → Bool) (l : List Char) :
    rpB p l = [] ∨ rpB p l = [' '] := lpB_cases p l.reverse

/-- C5 (confirmed): for every punctuation set and every text,
normalize is idempotent. -/
theorem claim_C5_normalize_idempotent (p : Char → Bool) (x : List Char) :
    normalizeText p (normalizeText p x) = normalizeText p x := by
  have hx1 := (cpD_spec p x).1
  have hyy : normalizeText p x = trimWs ((cpD p x).1) := by
    rw [normalizeText, hx1]
  have hinv := cpD_inv p x
  have hnorm_cp : NormText p ((cpD p x).1) := ⟨hinv.1, hinv.2.2.2.2.1⟩
  have hnorm_y : NormText p (normalizeText p x) := by
    rw [hyy]; exact normText_trim hnorm_cp
  have h2 := (cpD_spec p (normalizeText p x)).1
  rw [show normalizeText p (normalizeText p x)
      = trimWs (collapseWs (padPunct p (normalizeText p x))) from rfl]
  rw [← h2,
    cpD_fst_of_norm p (normalizeText p x).length (normalizeText p x)
      le_rfl hnorm_y,
    List.append_assoc,
    trimWs_wrap _ _ _ (lpB_cases p (normalizeText p x))
      (rpB_cases p (normalizeText p x)),
    hyy, trimWs_idem]

/-- Splitting a text at white space, dropping empty fragments (the
standard split of a string on white space). -/
def splitWs : List Char → List (List Char)
  | [] => []
  | c :: t =>
    if rustWs c then splitWs t
    else (c :: t.takeWhile (fun d => !rustWs d))
      :: splitWs (t.dropWhile (fun d => !rustWs d))
termination_by l => l.length
decreasing_by
  · simp only [List.length_cons]
    omega
  · simp only [List.length_cons]
    have h := (List.dropWhile_sublist (l := t) (fun d => !rustWs d)).length_le
    omega

/-- The tokenizer: an insertion-ordered vocabulary of words (an index
set, kept duplicate-free by construction) and the punctuation
configuration. -/
structure Tokenizer where
  dict : List (List Char)
  punct : Char → Bool

/-- Index of a word in the vocabulary, the index-set lookup. -/
def idxOf? (w : List Char) : List (List Char) → Option ℕ
  | [] => none
  | d :: t => if d = w then some 0 else (idxOf? w t).map (· + 1)

/-- The index-set insertion: returns the index of the word, inserting
it at the end when absent. -/
def insertFull (dict : List (List Char)) (w : List Char) :
    ℕ × List (List Char) :=
  match idxOf? w dict with
  | some i => (i, dict)
  | none => (dict.length, dict ++ [w])

/-- Tokenizer.fit at the word level: look up or insert every word in
order, returning the ids and the grown vocabulary. -/
def fitWords : List (List Char) → List (List Char) →
    List ℕ × List (List Char)
  | dict, [] => ([], dict)
  | dict, w :: ws =>
    let r := insertFull dict w
    let rest := fitWords r.2 ws
    (r.1 :: rest.1, rest.2)

/-- Tokenizer.tokenize at the word level: look every word up, dropping
the ones that are absent from the vocabulary. -/
def tokenizeWords (dict : List (List Char)) (ws : List (List Char)) :
    List ℕ :=
  ws.filterMap fun w => idxOf? w dict

/-- Tokenizer.fit: normalize, split on white space, insert every word. -/
def Tokenizer.fit (tk : Tokenizer) (text : List Char) :
    List ℕ × Tokenizer :=
  let r := fitWords tk.dict (splitWs (normalizeText tk.punct text))
  (r.1, ⟨r.2, tk.punct⟩)

/-- Tokenizer.tokenize: normalize, split on white space, look every
word up, dropping unknown words. -/
def Tokenizer.tokenize (tk : Tokenizer) (text : List Char) : List ℕ :=
  tokenizeWords tk.dict (splitWs (normalizeText tk.punct text))

theorem idxOf?_append_left (w : List Char) :
    ∀ (a b : List (List Char)) (i : ℕ), idxOf? w a = some i →
    idxOf? w (a ++ b) = some i := by
  intro a
  induction a with
  | nil => intro b i h; simp [idxOf?] at h
  | cons d t ih =>
    intro b i h
    by_cases hd : d = w
    · simp only [idxOf?, hd, if_true] at h ⊢
      simpa using h
    · simp only [idxOf?, hd, if_false, List.cons_append, List.append_eq] at h ⊢
      cases hx : idxOf? w t with
      | none => rw [hx] at h; simp at h
      | some j =>
        rw [hx] at h
        simp only [Option.map_some'] at h
        rw [ih b j hx]
        simpa using h

theorem idxOf?_append_self (w : List Char) :
    ∀ a : List (List Char), idxOf? w a = none →
    idxOf? w (a ++ [w]) = some a.length := by
  intro a
  induction a with
  | nil => intro _; simp [idxOf?]
  | cons d t ih =>
    intro h
    by_cases hd : d = w
    · simp [idxOf?, hd] at h
    · simp only [idxOf?, hd, if_false] at h ⊢
      cases hx : idxOf? w t with
      | some j => rw [hx] at h; simp at h
      | none =>
        simp only [List.append_eq]
        rw [ih hx]
        simp

theorem insertFull_spec (dict : List (List Char)) (w : List Char) :
    idxOf? w (insertFull dict w).2 = some (insertFull dict w).1 ∧
    ∃ e, (insertFull dict w).2 = dict ++ e := by
  unfold insertFull
  cases hx : idxOf? w dict with
  | some i =>
    refine ⟨hx, [], by simp⟩
  | none =>
    exact ⟨idxOf?_append_self w dict hx, [w], rfl⟩

theorem fitWords_mono : ∀ (ws : List (List Char)) (dict : List (List Char)),
    ∃ e, (fitWords dict ws).2 = dict ++ e := by
  intro ws
  induction ws with
  | nil => intro dict; exact ⟨[], by simp [fitWords]⟩
  | cons w ws ih =>
    intro dict
    obtain ⟨e1, he1⟩ := (insertFull_spec dict w).2
    obtain ⟨e2, he2⟩ := ih (insertFull dict w).2
    refine ⟨e1 ++ e2, ?_⟩
    simp only [fitWords]
    rw [he2, he1, List.append_assoc]

theorem tokenizeWords_fitWords :
    ∀ (ws : List (List Char)) (dict : List (List Char)),
    tokenizeWords (fitWords dict ws).2 ws = (fitWords dict ws).1 := by
  intro ws
  induction ws with
  | nil => intro dict; simp [fitWords, tokenizeWords]
  | cons w ws ih =>
    intro dict
    simp only [fitWords, tokenizeWords, List.filterMap_cons]
    obtain ⟨hidx, e1, he1⟩ := insertFull_spec dict w
    obtain ⟨e2, he2⟩ := fitWords_mono ws (insertFull dict w).2
    rw [he2, idxOf?_append_left w _ e2 _ hidx]
    have := ih (insertFull dict w).2
    simp only [tokenizeWords] at this
    rw [← he2, this]

/-- C6 (confirmed): after fitting a document, tokenizing the same
document with the updated tokenizer returns exactly the ids fit
returned, in order, with no drops. -/
theorem claim_C6_tokenize_after_fit (tk : Tokenizer) (text : List Char) :
    (tk.fit text).2.tokenize text = (tk.fit text).1 := by
  unfold Tokenizer.fit Tokenizer.tokenize
  exact tokenizeWords_fitWords (splitWs (normalizeText tk.punct text)) tk.dict

/-- Sequential fallible map over a list, failing as soon as one
element fails: the behaviour of collecting a panicking iterator. -/
def omapM {α β : Type} (f : α → Option β) : List α → Option (List β)
  | [] => some []
  | a :: t => (f a).bind fun b => (omapM f t).map fun bs => b :: bs

/-- Sequential fallible fold over a list, failing as soon as one step
fails: the behaviour of a for-loop whose body can panic. -/
def ofoldM {σ α : Type} (f : σ → α → Option σ) : σ → List α → Option σ
  | s, [] => some s
  | s, a :: t => (f s a).bind fun s2 => ofoldM f s2 t

/-- Enumeration of a list starting at a given index. -/
def enumL {α : Type} : ℕ → List α → List (ℕ × α)
  | _, [] => []
  | i, a :: t => (i, a) :: enumL (i + 1) t

/-- Slice indexing: none models the out-of-bounds panic. -/
def nth {α : Type} : List α → ℕ → Option α
  | [], _ => none
  | a :: _, 0 => some a
  | _ :: t, n + 1 => nth t n

/-- Two-level slice indexing into a count table. -/
def lookup2 (m : List (List ℕ)) (i j : ℕ) : Option ℕ :=
  (nth m i).bind fun row => nth row j

/-- In-place increment of one entry of a count row: none models the
out-of-bounds panic of the increment. -/
def setAt : List ℕ → ℕ → ℕ → Option (List ℕ)
  | [], _, _ => none
  | a :: t, 0, k => some ((a + k) :: t)
  | a :: t, n + 1, k => (setAt t n k).map fun t2 => a :: t2

/-- In-place increment of one entry of a count table. -/
def setAt2 : List (List ℕ) → ℕ → ℕ → ℕ → Option (List (List ℕ))
  | [], _, _, _ => none
  | r :: t, 0, j, k => (setAt r j k).map fun r2 => r2 :: t
  | r :: t, n + 1, j, k => (setAt2 t n j k).map fun t2 => r :: t2

/-- The Bernoulli Naive Bayes classifier state. -/
structure BernouliNB where
  feature_counts : List (List ℕ)
  total_samples : ℕ
  target_counts : List ℕ
  laplace_factor : ℝ

/-- BernouliNB::new. -/
def BernouliNB.new (n_features n_labels : ℕ) (laplace_smoothing : ℝ) :
    BernouliNB :=
  ⟨List.replicate n_labels (List.replicate n_features 0), 0,
    List.replicate n_labels 0, laplace_smoothing⟩

/-- BernouliNB::fit: assert the label is in range, then increment the
feature count of every token occurrence, then bump the sample and
label counters.  none models the panic of the assert or of an
out-of-range token index. -/
def BernouliNB.fit (st : BernouliNB) (tokens : List ℕ) (label : ℕ) :
    Option BernouliNB :=
  if label < st.target_counts.length then
    (ofoldM (fun fc token => setAt2 fc label token 1)
        st.feature_counts tokens).bind fun fc2 =>
      (setAt st.target_counts label 1).map fun tc2 =>
        ⟨fc2, st.total_samples + 1, tc2, st.laplace_factor⟩
  else none

/-- BernouliNB::predict_probas: for every label, sum the log of the
smoothed feature ratio over all query tokens, then add the log prior.
Tokens are looked up with plain indexing: an out-of-range token id is
a panic, modelled by none. -/
noncomputable def BernouliNB.predict_probas (st : BernouliNB)
    (tokens : List ℕ) : Option (List ℝ) :=
  omapM (fun tc =>
      (ofoldM (fun prob token =>
          (lookup2 st.feature_counts tc.1 token).map fun (fcnt : ℕ) =>
            prob + Real.log (((fcnt : ℝ) + st.laplace_factor) /
              ((tc.2 : ℝ) + (st.target_counts.length : ℝ) *
                st.laplace_factor)))
        (0 : ℝ) tokens).map fun prob =>
        prob + Real.log (((tc.2 : ℝ) + st.laplace_factor) /
          ((st.total_samples : ℝ) + 2 * st.laplace_factor)))
    (enumL 0 st.target_counts)

open Classical in
/-- The maximum of an enumerated score iterator under the standard
max-by reduction: the accumulator is kept only when strictly greater,
so the last of several equal maxima wins.  none models the unwrap
panic on an empty iterator. -/
noncomputable def maxByLast (l : List (ℕ × ℝ)) : Option (ℕ × ℝ) :=
  match l with
  | [] => none
  | x :: xs => some (xs.foldl (fun acc y => if y.2 < acc.2 then acc else y) x)

/-- BernouliNB::predict: enumerated arg-max over predict_probas. -/
noncomputable def BernouliNB.predict (st : BernouliNB) (tokens : List ℕ) :
    Option ℕ :=
  (st.predict_probas tokens).bind fun ps =>
    (maxByLast (enumL 0 ps)).map Prod.fst

/-- The Multinomial Naive Bayes classifier state. -/
structure MultinomialNB where
  feature_counts : List (List ℕ)
  label_feature_totals : List ℕ
  target_counts : List ℕ
  laplace_factor : ℝ
  total_samples : ℕ

/-- MultinomialNB::new. -/
def MultinomialNB.new (n_features n_labels : ℕ) (laplace_smoothing : ℝ) :
    MultinomialNB :=
  ⟨List.replicate n_labels (List.replicate n_features 0),
    List.replicate n_labels 0, List.replicate n_labels 0,
    laplace_smoothing, 0⟩

/-- MultinomialNB::fit: assert the target is in range, then for every
distinct token add its occurrence count to the feature table and to
the per-label feature total, then bump the sample and label counters.
The occurrence map is modelled by the first-occurrence list of
distinct tokens with their counts; its iteration order does not
affect the final state. -/
def MultinomialNB.fit (st : MultinomialNB) (tokens : List ℕ)
    (target : ℕ) : Option MultinomialNB :=
  if target < st.target_counts.length then
    (ofoldM (fun acc token =>
        (setAt2 acc.1 target token (tokens.count token)).bind fun fc2 =>
          (setAt acc.2 target (tokens.count token)).map fun lt2 =>
            (fc2, lt2))
      (st.feature_counts, st.label_feature_totals) tokens.dedup).bind
      fun acc =>
      (setAt st.target_counts target 1).map fun tc2 =>
        ⟨acc.1, acc.2, tc2, st.laplace_factor, st.total_samples + 1⟩
  else none

/-- MultinomialNB::predict_probas: the width of the feature table is
read from its first row (a panic when there are no labels, modelled by
none); for every label, start from the log prior, add the weighted log
of the smoothed feature ratio of every distinct in-range query token,
skipping out-of-range ids, and exponentiate the result. -/
noncomputable def MultinomialNB.predict_probas (st : MultinomialNB)
    (tokens : List ℕ) : Option (List ℝ) :=
  (nth st.feature_counts 0).bind fun row0 =>
    omapM (fun tc =>
        (ofoldM (fun logp token =>
            if row0.length ≤ token then some logp
            else
              (lookup2 st.feature_counts tc.1 token).bind fun (fcnt : ℕ) =>
                (nth st.label_feature_totals tc.1).map fun (tot : ℕ) =>
                  logp + (tokens.count token : ℝ) *
                    Real.log (((fcnt : ℝ) + st.laplace_factor) /
                      ((tot : ℝ) + (row0.length : ℝ) * st.laplace_factor)))
          (Real.log (((tc.2 : ℝ) + st.laplace_factor) /
            ((st.total_samples : ℝ) + (st.target_counts.length : ℝ) *
              st.laplace_factor)))
          tokens.dedup).map Real.exp)
      (enumL 0 st.target_counts)

/-- MultinomialNB::predict: enumerated arg-max over predict_probas. -/
noncomputable def MultinomialNB.predict (st : MultinomialNB)
    (tokens : List ℕ) : Option ℕ :=
  (st.predict_probas tokens).bind fun ps =>
    (maxByLast (enumL 0 ps)).map Prod.fst

theorem nth_lt {α : Type} (d : α) :
    ∀ (l : List α) (i : ℕ), i < l.length → nth l i = some (l.getD i d) := by
  intro l
  induction l with
  | nil => intro i h; simp at h
  | cons a t ih =>
    intro i h
    cases i with
    | zero => rfl
    | succ n =>
      simp only [List.length_cons, Nat.succ_lt_succ_iff] at h
      simpa [nth, List.getD] using ih n h

theorem nth_ge {α : Type} :
    ∀ (l : List α) (i : ℕ), l.length ≤ i → nth l i = none := by
  intro l
  induction l with
  | nil => intro i _; rfl
  | cons a t ih =>
    intro i h
    cases i with
    | zero => simp at h
    | succ n =>
      simp only [List.length_cons, Nat.succ_le_succ_iff] at h
      simpa [nth] using ih n h

theorem mem_enumL {α : Type} (d : α) :
    ∀ (l : List α) (i : ℕ) (x : ℕ × α), x ∈ enumL i l →
    i ≤ x.1 ∧ x.1 - i < l.length ∧ x.2 = l.getD (x.1 - i) d := by
  intro l
  induction l with
  | nil => intro i x hx; simp [enumL] at hx
  | cons a t ih =>
    intro i x hx
    simp only [enumL, List.mem_cons] at hx
    rcases hx with h | h
    · subst h; simp
    · obtain ⟨h1, h2, h3⟩ := ih (i + 1) x h
      refine ⟨by omega, by simp; omega, ?_⟩
      rw [h3]
      have hx1 : x.1 - i = (x.1 - (i + 1)) + 1 := by omega
      rw [hx1]
      simp [List.getD]

theorem omapM_eq_map {α β : Type} (f : α → Option β) (g : α → β) :
    ∀ l : List α, (∀ x ∈ l, f x = some (g x)) →
    omapM f l = some (l.map g) := by
  intro l
  induction l with
  | nil => intro _; rfl
  | cons a t ih =>
    intro h
    simp only [omapM, h a (List.mem_cons_self a t),
      ih fun x hx => h x (List.mem_cons_of_mem a hx), Option.some_bind,
      Option.map_some', List.map_cons]

theorem ofoldM_lookup_add (lk : ℕ → Option ℕ) (c : ℕ → ℕ → ℝ) :
    ∀ (l : List ℕ) (acc : ℝ), (∀ t ∈ l, ∃ v, lk t = some v) →
    ofoldM (fun s t => (lk t).map fun v => s + c t v) acc l
      = some (acc + (l.map fun t => c t ((lk t).getD 0)).sum) := by
  intro l
  induction l with
  | nil => intro acc _; simp [ofoldM]
  | cons a t ih =>
    intro acc h
    obtain ⟨v, hv⟩ := h a (List.mem_cons_self a t)
    simp only [ofoldM, hv, Option.map_some', Option.some_bind]
    rw [ih (acc + c a v) fun x hx => h x (List.mem_cons_of_mem a hx)]
    simp only [List.map_cons, List.sum_cons, hv, Option.getD_some]
    ring_nf

theorem nth_mem {α : Type} :
    ∀ (l : List α) (i : ℕ) (x : α), nth l i = some x → x ∈ l := by
  intro l
  induction l with
  | nil => intro i x h; simp [nth] at h
  | cons a t ih =>
    intro i x h
    cases i with
    | zero =>
      simp only [nth, Option.some.injEq] at h
      subst h; exact List.mem_cons_self a t
    | succ n => exact List.mem_cons_of_mem a (ih n x h)

/-- On a well-formed Bernoulli state, for a query whose token ids are
all in range, predict_probas is the per-label sum of log ratios plus
the log prior. -/
theorem bernoulli_probas_eq (st : BernouliNB) (tokens : List ℕ)
    (hwf : st.feature_counts.length = st.target_counts.length)
    (hrow : ∀ row ∈ st.feature_counts, ∀ t ∈ tokens, t < row.length) :
    st.predict_probas tokens
      = some ((enumL 0 st.target_counts).map fun tc =>
        (tokens.map fun tok =>
            Real.log ((((st.feature_counts.getD tc.1 []).getD tok 0 : ℝ)
                + st.laplace_factor) /
              ((tc.2 : ℝ) + (st.target_counts.length : ℝ)
                * st.laplace_factor))).sum
          + Real.log (((tc.2 : ℝ) + st.laplace_factor) /
              ((st.total_samples : ℝ) + 2 * st.laplace_factor))) := by
  unfold BernouliNB.predict_probas
  apply omapM_eq_map
  intro tc htc
  have hidx := mem_enumL (0 : ℕ) st.target_counts 0 tc htc
  have htc1 : tc.1 < st.feature_counts.length := by
    rw [hwf]; omega
  have hrowv : nth st.feature_counts tc.1
      = some (st.feature_counts.getD tc.1 []) := nth_lt [] _ _ htc1
  have hrmem : st.feature_counts.getD tc.1 [] ∈ st.feature_counts :=
    nth_mem _ _ _ hrowv
  have hlk : ∀ t ∈ tokens, lookup2 st.feature_counts tc.1 t
      = some ((st.feature_counts.getD tc.1 []).getD t 0) := by
    intro t ht
    unfold lookup2
    rw [hrowv, Option.some_bind]
    exact nth_lt 0 _ _ (hrow _ hrmem t ht)
  have hfold : ofoldM (fun prob token =>
      Option.map (fun (fcnt : ℕ) =>
        prob + Real.log (((fcnt : ℝ) + st.laplace_factor) /
          ((tc.2 : ℝ) + (st.target_counts.length : ℝ) * st.laplace_factor)))
        (lookup2 st.feature_counts tc.1 token)) (0 : ℝ) tokens
      = some (0 + (tokens.map fun t =>
          Real.log ((((lookup2 st.feature_counts tc.1 t).getD 0 : ℝ)
              + st.laplace_factor) /
            ((tc.2 : ℝ) + (st.target_counts.length : ℝ)
              * st.laplace_factor))).sum) :=
    ofoldM_lookup_add
      (fun token => lookup2 st.feature_counts tc.1 token)
      (fun tok v => Real.log (((v : ℝ) + st.laplace_factor) /
        ((tc.2 : ℝ) + (st.target_counts.length : ℝ) * st.laplace_factor)))
      tokens 0 (fun t ht => ⟨_, hlk t ht⟩)
  rw [hfold]
  simp only [Option.map_some', Option.some.injEq, zero_add]
  congr 1
  apply congrArg List.sum
  apply List.map_congr_left
  intro t ht
  rw [hlk t ht]
  rfl

/-- C3 (confirmed): for every Bernoulli classifier state with
well-formed table dimensions and every query whose token ids are all
in range, predict_probas returns for each label the sum over the
query tokens t of the log of the smoothed ratio of the feature count
of t over the smoothed label count, plus the log prior, as log values
(not exponentiated). -/
theorem claim_C3_bernoulli_probas (st : BernouliNB) (tokens : List ℕ)
    (hwf : st.feature_counts.length = st.target_counts.length)
    (hrow : ∀ row ∈ st.feature_counts, ∀ t ∈ tokens, t < row.length) :
    st.predict_probas tokens
      = some ((enumL 0 st.target_counts).map fun tc =>
        (tokens.map fun tok =>
            Real.log ((((st.feature_counts.getD tc.1 []).getD tok 0 : ℝ)
                + st.laplace_factor) /
              ((tc.2 : ℝ) + (st.target_counts.length : ℝ)
                * st.laplace_factor))).sum
          + Real.log (((tc.2 : ℝ) + st.laplace_factor) /
              ((st.total_samples : ℝ) + 2 * st.laplace_factor))) :=
  bernoulli_probas_eq st tokens hwf hrow

/-- The Bernoulli state reached from a fresh 3-feature 2-label
classifier with unit smoothing after fitting tokens 0,1 with label 1
and token 2 with label 0. -/
def stB2 : BernouliNB := ⟨[[0, 0, 1], [1, 1, 0]], 2, [1, 1], 1⟩

theorem claim_C3_bernoulli_probas_witness :
    (((BernouliNB.new 3 2 1).fit [0, 1] 1).bind fun s => s.fit [2] 0)
        = some stB2 ∧
    stB2.predict_probas [0] = some
      [Real.log ((0 + 1) / (1 + 2 * 1)) + Real.log ((1 + 1) / (2 + 2 * 1)),
       Real.log ((1 + 1) / (1 + 2 * 1)) + Real.log ((1 + 1) / (2 + 2 * 1))] := by
  constructor
  · rfl
  · rw [claim_C3_bernoulli_probas stB2 [0] rfl (by decide)]
    simp only [stB2, enumL, List.map_cons, List.map_nil, List.sum_cons,
      List.sum_nil, List.getD_cons_zero, List.getD_cons_succ,
      Option.some.injEq]
    norm_num

theorem ofoldM_skip_ge (nf : ℕ) {σ : Type} (f : σ → ℕ → Option σ) :
    ∀ (l : List ℕ) (s : σ),
    ofoldM (fun s a => if nf ≤ a then some s else f s a) s l
      = ofoldM f s (l.filter fun a => a < nf) := by
  intro l
  induction l with
  | nil => intro s; rfl
  | cons a t ih =>
    intro s
    by_cases ha : nf ≤ a
    · have hlt : ¬ (a < nf) := by omega
      have hdec : decide (a < nf) = false := by simp [hlt]
      simp only [ofoldM, if_pos ha, Option.some_bind, List.filter_cons,
        hdec, Bool.false_eq_true, if_false]
      exact ih s
    · have hlt : a < nf := by omega
      have hdec : decide (a < nf) = true := by simp [hlt]
      simp only [ofoldM, if_neg ha, List.filter_cons, hdec, if_true]
      cases hfa : f s a with
      | none => simp [ofoldM, hfa]
      | some s2 =>
        simp only [ofoldM, hfa, Option.some_bind]
        exact ih s2

theorem ofoldM_add_eq_sum {α : Type} (term : α → ℝ) (f : ℝ → α → Option ℝ) :
    ∀ (l : List α) (s : ℝ), (∀ s2 : ℝ, ∀ a ∈ l, f s2 a = some (s2 + term a)) →
    ofoldM f s l = some (s + (l.map term).sum) := by
  intro l
  induction l with
  | nil => intro s _; simp [ofoldM]
  | cons a t ih =>
    intro s h
    simp only [ofoldM, h s a (List.mem_cons_self a t), Option.some_bind]
    rw [ih (s + term a) fun s2 x hx => h s2 x (List.mem_cons_of_mem a hx)]
    simp only [List.map_cons, List.sum_cons, Option.some.injEq]
    ring

/-- On a well-formed Multinomial state with at least one label,
predict_probas is the per-label exponential of the log prior plus the
weighted sum of log ratios of the distinct in-range query tokens. -/
theorem multinomial_probas_eq (st : MultinomialNB) (tokens : List ℕ)
    (h0 : 0 < st.feature_counts.length)
    (hwf : st.feature_counts.length = st.target_counts.length)
    (hlft : st.label_feature_totals.length = st.target_counts.length)
    (hrows : ∀ row ∈ st.feature_counts,
      row.length = (st.feature_counts.getD 0 []).length) :
    st.predict_probas tokens
      = some ((enumL 0 st.target_counts).map fun tc =>
        Real.exp (
          Real.log (((tc.2 : ℝ) + st.laplace_factor) /
            ((st.total_samples : ℝ) + (st.target_counts.length : ℝ)
              * st.laplace_factor))
          + ((tokens.dedup.filter fun t =>
                t < (st.feature_counts.getD 0 []).length).map fun t =>
              (tokens.count t : ℝ) * Real.log
                ((((st.feature_counts.getD tc.1 []).getD t 0 : ℝ)
                    + st.laplace_factor) /
                  ((st.label_feature_totals.getD tc.1 0 : ℝ)
                    + ((st.feature_counts.getD 0 []).length : ℝ)
                      * st.laplace_factor))).sum)) := by
  unfold MultinomialNB.predict_probas
  rw [nth_lt [] st.feature_counts 0 h0, Option.some_bind]
  apply omapM_eq_map
  intro tc htc
  have hidx := mem_enumL (0 : ℕ) st.target_counts 0 tc htc
  have htc1 : tc.1 < st.feature_counts.length := by rw [hwf]; omega
  have htcl : tc.1 < st.label_feature_totals.length := by rw [hlft]; omega
  have hrowv : nth st.feature_counts tc.1
      = some (st.feature_counts.getD tc.1 []) := nth_lt [] _ _ htc1
  have hrmem : st.feature_counts.getD tc.1 [] ∈ st.feature_counts :=
    nth_mem _ _ _ hrowv
  have hlftv : nth st.label_feature_totals tc.1
      = some (st.label_feature_totals.getD tc.1 0) := nth_lt 0 _ _ htcl
  have hskip := ofoldM_skip_ge (st.feature_counts.getD 0 []).length
    (fun logp token =>
      (lookup2 st.feature_counts tc.1 token).bind fun (fcnt : ℕ) =>
        (nth st.label_feature_totals tc.1).map fun (tot : ℕ) =>
          logp + (tokens.count token : ℝ) *
            Real.log (((fcnt : ℝ) + st.laplace_factor) /
              ((tot : ℝ) + ((st.feature_counts.getD 0 []).length : ℝ)
                * st.laplace_factor)))
    tokens.dedup
    (Real.log (((tc.2 : ℝ) + st.laplace_factor) /
      ((st.total_samples : ℝ) + (st.target_counts.length : ℝ)
        * st.laplace_factor)))
  rw [hskip]
  rw [ofoldM_add_eq_sum
    (fun t => (tokens.count t : ℝ) * Real.log
      ((((st.feature_counts.getD tc.1 []).getD t 0 : ℝ)
          + st.laplace_factor) /
        ((st.label_feature_totals.getD tc.1 0 : ℝ)
          + ((st.feature_counts.getD 0 []).length : ℝ)
            * st.laplace_factor))) _ _ _ ?hsome]
  · rfl
  case hsome =>
    intro s2 a hmem
    rw [List.mem_filter] at hmem
    have halt : a < (st.feature_counts.getD 0 []).length := by
      simpa using hmem.2
    have hlk : lookup2 st.feature_counts tc.1 a
        = some ((st.feature_counts.getD tc.1 []).getD a 0) := by
      unfold lookup2
      rw [hrowv, Option.some_bind]
      exact nth_lt 0 _ _ (by rw [hrows _ hrmem]; exact halt)
    rw [hlk, Option.some_bind, hlftv, Option.map_some']

/-- C4 (confirmed): for every well-formed Multinomial classifier state
with at least one label and every query token sequence, predict_probas
returns for each label the exponential of the log prior plus, for each
distinct in-range query token t occurring c times, c times the log of
the smoothed feature ratio; the final per-label value is exponentiated,
a raw likelihood rather than a log-probability. -/
theorem claim_C4_multinomial_probas (st : MultinomialNB) (tokens : List ℕ)
    (h0 : 0 < st.feature_counts.length)
    (hwf : st.feature_counts.length = st.target_counts.length)
    (hlft : st.label_feature_totals.length = st.target_counts.length)
    (hrows : ∀ row ∈ st.feature_counts,
      row.length = (st.feature_counts.getD 0 []).length) :
    st.predict_probas tokens
      = some ((enumL 0 st.target_counts).map fun tc =>
        Real.exp (
          Real.log (((tc.2 : ℝ) + st.laplace_factor) /
            ((st.total_samples : ℝ) + (st.target_counts.length : ℝ)
              * st.laplace_factor))
          + ((tokens.dedup.filter fun t =>
                t < (st.feature_counts.getD 0 []).length).map fun t =>
              (tokens.count t : ℝ) * Real.log
                ((((st.feature_counts.getD tc.1 []).getD t 0 : ℝ)
                    + st.laplace_factor) /
                  ((st.label_feature_totals.getD tc.1 0 : ℝ)
                    + ((st.feature_counts.getD 0 []).length : ℝ)
                      * st.laplace_factor))).sum)) :=
  multinomial_probas_eq st tokens h0 hwf hlft hrows

/-- The Multinomial state reached from a fresh 3-feature 2-label
classifier with unit smoothing after fitting tokens 0,1,1 with label 1
and token 2 with label 0. -/
def stM2 : MultinomialNB := ⟨[[0, 0, 1], [1, 2, 0]], [1, 3], [1, 1], 1, 2⟩

theorem claim_C4_multinomial_probas_witness :
    (((MultinomialNB.new 3 2 1).fit [0, 1, 1] 1).bind fun s => s.fit [2] 0)
        = some stM2 ∧
    stM2.predict_probas [0, 5] = some
      [Real.exp (Real.log ((1 + 1) / (2 + 2 * 1))
          + 1 * Real.log ((0 + 1) / (1 + 3 * 1))),
       Real.exp (Real.log ((1 + 1) / (2 + 2 * 1))
          + 1 * Real.log ((1 + 1) / (3 + 3 * 1)))] := by
  constructor
  · rfl
  · rw [claim_C4_multinomial_probas stM2 [0, 5] (by decide) rfl rfl
      (by decide)]
    simp only [stM2, enumL, List.map_cons, List.map_nil, List.sum_cons,
      List.sum_nil, List.getD_cons_zero, List.getD_cons_succ,
      Option.some.injEq]
    norm_num [List.dedup, List.count_cons, List.filter]

theorem ofoldM_map_none {σ α β : Type} (lk : α → Option β)
    (g : σ → α → β → σ) :
    ∀ (l : List α) (s : σ), (∃ a ∈ l, lk a = none) →
    ofoldM (fun s a => (lk a).map (g s a)) s l = none := by
  intro l
  induction l with
  | nil => intro s h; simp at h
  | cons a t ih =>
    intro s h
    cases hla : lk a with
    | none => simp [ofoldM, hla]
    | some v =>
      obtain ⟨x, hx, hlx⟩ := h
      rcases List.mem_cons.1 hx with hxa | hxt
      · subst hxa; rw [hlx] at hla; cases hla
      · simp only [ofoldM, hla, Option.map_some', Option.some_bind]
        exact ih _ ⟨x, hxt, hlx⟩

/-- Bernoulli predict_probas panics (returns none) as soon as the
query contains a token id beyond the feature-table width, provided
there is at least one label. -/
theorem bernoulli_probas_fails (st : BernouliNB) (tokens : List ℕ)
    (nf : ℕ) (h0 : 0 < st.target_counts.length)
    (hfc : 0 < st.feature_counts.length)
    (hrows : ∀ row ∈ st.feature_counts, row.length = nf)
    (hoob : ∃ t ∈ tokens, nf ≤ t) :
    st.predict_probas tokens = none := by
  unfold BernouliNB.predict_probas
  cases htc : st.target_counts with
  | nil => rw [htc] at h0; simp at h0
  | cons c rest =>
    simp only [enumL, omapM]
    have hrow0 : nth st.feature_counts 0
        = some (st.feature_counts.getD 0 []) := nth_lt [] _ _ hfc
    have hmem0 : st.feature_counts.getD 0 [] ∈ st.feature_counts :=
      nth_mem _ _ _ hrow0
    have hnone : ofoldM (fun prob token =>
        Option.map (fun (fcnt : ℕ) =>
          prob + Real.log (((fcnt : ℝ) + st.laplace_factor) /
            ((c : ℝ) + ((c :: rest).length : ℝ) * st.laplace_factor)))
          (lookup2 st.feature_counts 0 token)) (0 : ℝ) tokens
        = none := by
      apply ofoldM_map_none
      obtain ⟨t0, ht0, hge⟩ := hoob
      refine ⟨t0, ht0, ?_⟩
      unfold lookup2
      rw [hrow0, Option.some_bind]
      apply nth_ge
      rw [hrows _ hmem0]
      exact hge
    rw [hnone]
    rfl

/-- Removing duplicates commutes with filtering. -/
theorem dedup_filter (q : ℕ → Bool) :
    ∀ l : List ℕ, (l.filter q).dedup = l.dedup.filter q := by
  intro l
  induction l with
  | nil => rfl
  | cons a t ih =>
    by_cases hq : q a
    · rw [List.filter_cons_of_pos hq]
      by_cases hmem : a ∈ t
      · rw [List.dedup_cons_of_mem (List.mem_filter.2 ⟨hmem, hq⟩),
          List.dedup_cons_of_mem hmem, ih]
      · have hmf : a ∉ t.filter q := fun hx => hmem (List.mem_filter.1 hx).1
        rw [List.dedup_cons_of_not_mem hmf, List.dedup_cons_of_not_mem hmem,
          List.filter_cons_of_pos hq, ih]
    · rw [List.filter_cons_of_neg hq]
      by_cases hmem : a ∈ t
      · rw [List.dedup_cons_of_mem hmem, ih]
      · rw [List.dedup_cons_of_not_mem hmem,
          List.filter_cons_of_neg hq, ih]

/-- Multinomial predict_probas is unchanged when the out-of-range
token ids are removed from the query. -/
theorem multinomial_probas_filter (st : MultinomialNB) (tokens : List ℕ)
    (h0 : 0 < st.feature_counts.length)
    (hwf : st.feature_counts.length = st.target_counts.length)
    (hlft : st.label_feature_totals.length = st.target_counts.length)
    (hrows : ∀ row ∈ st.feature_counts,
      row.length = (st.feature_counts.getD 0 []).length) :
    st.predict_probas tokens
      = st.predict_probas (tokens.filter fun t =>
          t < (st.feature_counts.getD 0 []).length) := by
  rw [multinomial_probas_eq st tokens h0 hwf hlft hrows,
    multinomial_probas_eq st _ h0 hwf hlft hrows]
  congr 1
  apply List.map_congr_left
  intro tc _
  congr 1
  congr 1
  have hlist : (tokens.filter fun t =>
        t < (st.feature_counts.getD 0 []).length).dedup.filter
          (fun t => t < (st.feature_counts.getD 0 []).length)
      = tokens.dedup.filter
          (fun t => t < (st.feature_counts.getD 0 []).length) := by
    rw [dedup_filter]
    rw [List.filter_filter]
    apply List.filter_congr
    intro x _
    simp [Bool.and_self]
  rw [hlist]
  apply congrArg List.sum
  apply List.map_congr_left
  intro t ht
  have htq := (List.mem_filter.1 ht).2
  have htlt : t < (st.feature_counts.getD 0 []).length := by simpa using htq
  rw [List.count_filter (by simpa using htlt)]

/-- C2 (corrected): out-of-vocabulary token ids at prediction time are
silently ignored by the Multinomial variant only: there they
contribute nothing to any score and cause no failure (given at least
one label and well-formed tables).  The Bernoulli variant instead
panics on any token id beyond the feature-table width. -/
theorem claim_C2_oov_prediction :
    (∀ (st : MultinomialNB) (tokens : List ℕ),
      0 < st.feature_counts.length →
      st.feature_counts.length = st.target_counts.length →
      st.label_feature_totals.length = st.target_counts.length →
      (∀ row ∈ st.feature_counts,
        row.length = (st.feature_counts.getD 0 []).length) →
      st.predict_probas tokens
          = st.predict_probas (tokens.filter fun t =>
              t < (st.feature_counts.getD 0 []).length) ∧
        (st.predict_probas tokens).isSome = true) ∧
    (∀ (st : BernouliNB) (tokens : List ℕ) (nf : ℕ),
      0 < st.target_counts.length →
      0 < st.feature_counts.length →
      (∀ row ∈ st.feature_counts, row.length = nf) →
      (∃ t ∈ tokens, nf ≤ t) →
      st.predict_probas tokens = none) := by
  constructor
  · intro st tokens h0 hwf hlft hrows
    refine ⟨multinomial_probas_filter st tokens h0 hwf hlft hrows, ?_⟩
    rw [multinomial_probas_eq st tokens h0 hwf hlft hrows]
    rfl
  · intro st tokens nf h0 hfc hrows hoob
    exact bernoulli_probas_fails st tokens nf h0 hfc hrows hoob

theorem claim_C2_oov_prediction_witness :
    stM2.predict_probas [0, 5] = stM2.predict_probas [0] ∧
    (BernouliNB.new 1 2 1).predict_probas [1] = none := by
  constructor
  · have h := (claim_C2_oov_prediction.1 stM2 [0, 5]
      (by decide) rfl rfl (by decide)).1
    simpa [stM2] using h
  · exact claim_C2_oov_prediction.2 (BernouliNB.new 1 2 1) [1] 1
      (by decide) (by decide) (by decide) (by decide)

/-- The claim is false as stated for the Bernoulli variant: on a
1-feature classifier, a query containing token id 1 makes
predict_probas fail (an out-of-bounds panic, modelled by none), while
the same query without the out-of-range id succeeds. -/
theorem claim_C2_counterexample :
    (BernouliNB.new 1 2 1).predict_probas [1] = none ∧
    ((BernouliNB.new 1 2 1).predict_probas []).isSome = true :=
  ⟨rfl, rfl⟩

open Classical in
/-- The reduction step of the max-by comparison: the accumulator is
kept only when strictly greater, otherwise the new element wins. -/
noncomputable def maxStep : ℕ × ℝ → ℕ × ℝ → ℕ × ℝ :=
  fun acc y => if y.2 < acc.2 then acc else y

theorem maxByLast_cons (x : ℕ × ℝ) (xs : List (ℕ × ℝ)) :
    maxByLast (x :: xs) = some (xs.foldl maxStep x) := rfl

theorem maxStep_left {acc y : ℕ × ℝ} (h : y.2 < acc.2) :
    maxStep acc y = acc := if_pos h

theorem maxStep_right {acc y : ℕ × ℝ} (h : ¬ y.2 < acc.2) :
    maxStep acc y = y := if_neg h

theorem maxfold_spec (l : List ℝ) : ∀ (k : ℕ) (acc : ℕ × ℝ),
    ((enumL k l).foldl maxStep acc = acc ∨
      ∃ m, m < l.length ∧ ((enumL k l).foldl maxStep acc).1 = k + m ∧
        ((enumL k l).foldl maxStep acc).2 = l.getD m 0) ∧
    acc.2 ≤ ((enumL k l).foldl maxStep acc).2 ∧
    (∀ m, m < l.length → l.getD m 0 ≤ ((enumL k l).foldl maxStep acc).2) ∧
    (∀ m, m < l.length → ((enumL k l).foldl maxStep acc).1 < k + m →
      l.getD m 0 < ((enumL k l).foldl maxStep acc).2) := by
  induction l with
  | nil =>
    intro k acc
    refine ⟨Or.inl rfl, le_rfl, ?_, ?_⟩ <;> intro m hm <;> simp at hm
  | cons x t ih =>
    intro k acc
    have hfold : (enumL k (x :: t)).foldl maxStep acc
        = (enumL (k + 1) t).foldl maxStep (maxStep acc (k, x)) := rfl
    by_cases hx : x < acc.2
    · have hstep : maxStep acc (k, x) = acc := maxStep_left hx
      obtain ⟨h1, h2, h3, h4⟩ := ih (k + 1) acc
      rw [hfold, hstep]
      refine ⟨?_, h2, ?_, ?_⟩
      · rcases h1 with h | ⟨m, hm, hm1, hm2⟩
        · exact Or.inl h
        · refine Or.inr ⟨m + 1, by simpa using hm, ?_, ?_⟩
          · rw [hm1]; omega
          · rw [hm2]; simp
      · intro m hm
        cases m with
        | zero =>
          simpa using le_trans (le_of_lt hx) h2
        | succ m2 =>
          have := h3 m2 (by simpa using hm)
          simpa using this
      · intro m hm hlt
        cases m with
        | zero =>
          simpa using lt_of_lt_of_le hx h2
        | succ m2 =>
          have := h4 m2 (by simpa using hm) (by omega)
          simpa using this
    · have hstep : maxStep acc (k, x) = (k, x) := maxStep_right hx
      have hax : acc.2 ≤ x := not_lt.1 hx
      obtain ⟨h1, h2, h3, h4⟩ := ih (k + 1) (k, x)
      rw [hfold, hstep]
      have h2x : x ≤ ((enumL (k + 1) t).foldl maxStep (k, x)).2 := h2
      refine ⟨?_, le_trans hax h2x, ?_, ?_⟩
      · rcases h1 with h | ⟨m, hm, hm1, hm2⟩
        · refine Or.inr ⟨0, by simp, ?_, ?_⟩
          · rw [h]; simp
          · rw [h]; simp
        · refine Or.inr ⟨m + 1, by simpa using hm, ?_, ?_⟩
          · rw [hm1]; omega
          · rw [hm2]; simp
      · intro m hm
        cases m with
        | zero => simpa using h2x
        | succ m2 =>
          have := h3 m2 (by simpa using hm)
          simpa using this
      · intro m hm hlt
        cases m with
        | zero =>
          exfalso
          rcases h1 with h | ⟨m3, hm3, hm31, _⟩
          · rw [h] at hlt; simp at hlt
          · rw [hm31] at hlt; omega
        | succ m2 =>
          have := h4 m2 (by simpa using hm) (by omega)
          simpa using this

/-- The enumerated max-by of a nonempty score list returns the last
index attaining the maximal score. -/
theorem maxByLast_spec (ps : List ℝ) (hne : ps ≠ []) :
    ∃ i v, maxByLast (enumL 0 ps) = some (i, v) ∧ i < ps.length ∧
      ps.getD i 0 = v ∧ (∀ j, j < ps.length → ps.getD j 0 ≤ v) ∧
      (∀ j, j < ps.length → ps.getD j 0 = v → j ≤ i) := by
  cases ps with
  | nil => exact absurd rfl hne
  | cons x t =>
    have henum : enumL 0 (x :: t) = (0, x) :: enumL 1 t := rfl
    rw [henum, maxByLast_cons]
    obtain ⟨h1, h2, h3, h4⟩ := maxfold_spec t 1 (0, x)
    refine ⟨((enumL 1 t).foldl maxStep (0, x)).1,
      ((enumL 1 t).foldl maxStep (0, x)).2, by simp, ?_, ?_, ?_, ?_⟩
    · rcases h1 with h | ⟨m, hm, hm1, _⟩
      · rw [h]; simp
      · rw [hm1]; simp; omega
    · rcases h1 with h | ⟨m, hm, hm1, hm2⟩
      · rw [h]; simp
      · rw [hm1, hm2]
        rw [Nat.add_comm 1 m]
        simp
    · intro j hj
      cases j with
      | zero => simpa using h2
      | succ j2 =>
        have := h3 j2 (by simpa using hj)
        simpa using this
    · intro j hj hjv
      by_contra hgt
      push_neg at hgt
      cases j with
      | zero => omega
      | succ j2 =>
        have hlt := h4 j2 (by simpa using hj) (by omega)
        rw [show (x :: t).getD (j2 + 1) 0 = t.getD j2 0 by simp] at hjv
        rw [hjv] at hlt
        exact lt_irrefl _ hlt

theorem argmax_of_bind (o : Option (List ℝ)) (ps : List ℝ)
    (h : o = some ps) (hne : ps ≠ []) :
    ∃ i, (o.bind fun ps2 => (maxByLast (enumL 0 ps2)).map Prod.fst)
        = some i ∧
      i < ps.length ∧ (∀ j, j < ps.length → ps.getD j 0 ≤ ps.getD i 0) ∧
      (∀ j, j < ps.length → ps.getD j 0 = ps.getD i 0 → j ≤ i) := by
  subst h
  simp only [Option.some_bind]
  obtain ⟨i, v, hm, hlen, hgv, hub, hlast⟩ := maxByLast_spec ps hne
  refine ⟨i, by rw [hm]; rfl, hlen, ?_, ?_⟩
  · intro j hj
    rw [hgv]
    exact hub j hj
  · intro j hj he
    rw [hgv] at he
    exact hlast j hj he

/-- C1 (corrected): predict returns the LARGEST label index among
those whose predict_probas score is maximal: when several labels have
exactly equal maximal scores, the max-by reduction keeps the later
element, so the highest label index wins, not the lowest. -/
theorem claim_C1_predict_is_last_argmax :
    (∀ (st : BernouliNB) (tokens : List ℕ) (ps : List ℝ),
      st.predict_probas tokens = some ps → ps ≠ [] →
      ∃ i, st.predict tokens = some i ∧ i < ps.length ∧
        (∀ j, j < ps.length → ps.getD j 0 ≤ ps.getD i 0) ∧
        (∀ j, j < ps.length → ps.getD j 0 = ps.getD i 0 → j ≤ i)) ∧
    (∀ (st : MultinomialNB) (tokens : List ℕ) (ps : List ℝ),
      st.predict_probas tokens = some ps → ps ≠ [] →
      ∃ i, st.predict tokens = some i ∧ i < ps.length ∧
        (∀ j, j < ps.length → ps.getD j 0 ≤ ps.getD i 0) ∧
        (∀ j, j < ps.length → ps.getD j 0 = ps.getD i 0 → j ≤ i)) := by
  constructor
  · intro st tokens ps hps hne
    exact argmax_of_bind (st.predict_probas tokens) ps hps hne
  · intro st tokens ps hps hne
    exact argmax_of_bind (st.predict_probas tokens) ps hps hne

/-- The score vector of a fresh 1-feature 2-label Bernoulli classifier
with unit smoothing on the empty query: both labels receive exactly
the same score. -/
noncomputable def psFresh : List ℝ :=
  [(0 : ℝ) + Real.log ((((0 : ℕ) : ℝ) + 1) / (((0 : ℕ) : ℝ) + 2 * 1)),
   (0 : ℝ) + Real.log ((((0 : ℕ) : ℝ) + 1) / (((0 : ℕ) : ℝ) + 2 * 1))]

theorem claim_C1_predict_is_last_argmax_witness :
    (BernouliNB.new 1 2 1).predict [] = some 1 := by
  have hps : (BernouliNB.new 1 2 1).predict_probas [] = some psFresh := rfl
  obtain ⟨i, hp, hlen, hub, hlast⟩ :=
    claim_C1_predict_is_last_argmax.1 (BernouliNB.new 1 2 1) [] psFresh hps
      (by simp [psFresh])
  have hi2 : i < 2 := by simpa [psFresh] using hlen
  interval_cases i
  · exfalso
    have h10 := hlast 1 (by simp [psFresh]) rfl
    omega
  · exact hp

/-- The least index whose score is maximal in a score list. -/
def IsLeastArgmax (ps : List ℝ) (i : ℕ) : Prop :=
  i < ps.length ∧ (∀ j, j < ps.length → ps.getD j 0 ≤ ps.getD i 0) ∧
  ∀ j, j < ps.length → (∀ m, m < ps.length → ps.getD m 0 ≤ ps.getD j 0) →
    i ≤ j

/-- The claim is false as stated: on a fresh 1-feature 2-label
Bernoulli classifier and the empty query, both labels score equally,
the smallest maximal label index is 0, yet predict returns label 1. -/
theorem claim_C1_counterexample :
    (BernouliNB.new 1 2 1).predict_probas [] = some psFresh ∧
    IsLeastArgmax psFresh 0 ∧
    (BernouliNB.new 1 2 1).predict [] = some 1 ∧
    ¬ (BernouliNB.new 1 2 1).predict [] = some 0 := by
  have hpred : (BernouliNB.new 1 2 1).predict [] = some 1 := by
    unfold BernouliNB.predict
    rw [show (BernouliNB.new 1 2 1).predict_probas [] = some psFresh
      from rfl]
    obtain ⟨p, hp⟩ : ∃ p : ℝ, psFresh = [p, p] := ⟨_, rfl⟩
    rw [hp, Option.some_bind]
    rw [show enumL 0 [p, p] = [(0, p), (1, p)] from rfl, maxByLast_cons]
    simp only [List.foldl_cons, List.foldl_nil]
    rw [maxStep_right (lt_irrefl p)]
    rfl
  refine ⟨rfl, ⟨by simp [psFresh], ?_, ?_⟩, hpred, ?_⟩
  · intro j hj
    have hj2 : j < 2 := by simpa [psFresh] using hj
    interval_cases j
    · exact le_rfl
    · exact le_of_eq rfl
  · intro j hj hmax
    exact Nat.zero_le j
  · rw [hpred]
    simp

theorem setAt_none_of_ge :
    ∀ (l : List ℕ) (j k : ℕ), l.length ≤ j → setAt l j k = none := by
  intro l
  induction l with
  | nil => intro j k _; rfl
  | cons a t ih =>
    intro j k h
    cases j with
    | zero => simp at h
    | succ n =>
      simp only [List.length_cons, Nat.succ_le_succ_iff] at h
      simp [setAt, ih n k h]

theorem setAt_eq_set :
    ∀ (l : List ℕ) (j k : ℕ), j < l.length →
    setAt l j k = some (l.set j (l.getD j 0 + k)) := by
  intro l
  induction l with
  | nil => intro j k h; simp at h
  | cons a t ih =>
    intro j k h
    cases j with
    | zero => rfl
    | succ n =>
      simp only [List.length_cons, Nat.succ_lt_succ_iff] at h
      simp [setAt, ih n k h, List.getD]

theorem sum_set_add :
    ∀ (l : List ℕ) (j k : ℕ), j < l.length →
    (l.set j (l.getD j 0 + k)).sum = l.sum + k := by
  intro l
  induction l with
  | nil => intro j k h; simp at h
  | cons a t ih =>
    intro j k h
    cases j with
    | zero =>
      simp only [List.getD_cons_zero, List.set_cons_zero, List.sum_cons]
      omega
    | succ n =>
      simp only [List.length_cons, Nat.succ_lt_succ_iff] at h
      simp only [List.getD_cons_succ, List.set_cons_succ, List.sum_cons,
        ih n k h]
      omega

theorem getD_set_ne {α : Type} (d : α) :
    ∀ (l : List α) (i j : ℕ) (v : α), i ≠ j →
    (l.set j v).getD i d = l.getD i d := by
  intro l
  induction l with
  | nil => intro i j v _; simp
  | cons a t ih =>
    intro i j v hne
    cases j with
    | zero =>
      cases i with
      | zero => exact absurd rfl hne
      | succ m => simp [List.getD]
    | succ n =>
      cases i with
      | zero => simp [List.getD]
      | succ m =>
        simp only [List.set_cons_succ, List.getD_cons_succ]
        exact ih m n v (by omega)

theorem getD_set_self {α : Type} (d : α) :
    ∀ (l : List α) (j : ℕ) (v : α), j < l.length →
    (l.set j v).getD j d = v := by
  intro l
  induction l with
  | nil => intro j v h; simp at h
  | cons a t ih =>
    intro j v h
    cases j with
    | zero => rfl
    | succ n =>
      simp only [List.length_cons, Nat.succ_lt_succ_iff] at h
      simp only [List.set_cons_succ, List.getD_cons_succ]
      exact ih n v h

theorem setAt2_none_of_ge_outer :
    ∀ (m : List (List ℕ)) (i j k : ℕ), m.length ≤ i →
    setAt2 m i j k = none := by
  intro m
  induction m with
  | nil => intro i j k _; rfl
  | cons r t ih =>
    intro i j k h
    cases i with
    | zero => simp at h
    | succ n =>
      simp only [List.length_cons, Nat.succ_le_succ_iff] at h
      simp [setAt2, ih n j k h]

theorem setAt2_none_of_ge_inner :
    ∀ (m : List (List ℕ)) (i j k : ℕ), i < m.length →
    (m.getD i []).length ≤ j → setAt2 m i j k = none := by
  intro m
  induction m with
  | nil => intro i j k h _; simp at h
  | cons r t ih =>
    intro i j k hi hj
    cases i with
    | zero =>
      simp only [List.getD_cons_zero] at hj
      simp [setAt2, setAt_none_of_ge r j k hj]
    | succ n =>
      simp only [List.length_cons, Nat.succ_lt_succ_iff] at hi
      simp only [List.getD_cons_succ] at hj
      simp [setAt2, ih n j k hi hj]

theorem setAt2_eq_set :
    ∀ (m : List (List ℕ)) (i j k : ℕ), i < m.length →
    j < (m.getD i []).length →
    setAt2 m i j k
      = some (m.set i ((m.getD i []).set j ((m.getD i []).getD j 0 + k))) := by
  intro m
  induction m with
  | nil => intro i j k h _; simp at h
  | cons r t ih =>
    intro i j k hi hj
    cases i with
    | zero =>
      simp only [List.getD_cons_zero] at hj ⊢
      simp [setAt2, setAt_eq_set r j k hj]
    | succ n =>
      simp only [List.length_cons, Nat.succ_lt_succ_iff] at hi
      simp only [List.getD_cons_succ] at hj ⊢
      simp [setAt2, ih n j k hi hj]

theorem total_sum_set (m : List (List ℕ)) :
    ∀ (i : ℕ) (row : List ℕ), i < m.length →
    ((m.set i row).map List.sum).sum + (m.getD i []).sum
      = (m.map List.sum).sum + row.sum := by
  induction m with
  | nil => intro i row h; simp at h
  | cons r t ih =>
    intro i row hi
    cases i with
    | zero =>
      simp only [List.set_cons_zero, List.map_cons, List.sum_cons,
        List.getD_cons_zero]
      omega
    | succ n =>
      simp only [List.length_cons, Nat.succ_lt_succ_iff] at hi
      simp only [List.set_cons_succ, List.map_cons, List.sum_cons,
        List.getD_cons_succ]
      have := ih n row hi
      omega

theorem mem_set_subset {α : Type} :
    ∀ (l : List α) (i : ℕ) (v x : α), x ∈ l.set i v → x ∈ l ∨ x = v := by
  intro l
  induction l with
  | nil => intro i v x h; simp at h
  | cons a t ih =>
    intro i v x h
    cases i with
    | zero =>
      rcases List.mem_cons.1 h with h2 | h2
      · exact Or.inr h2
      · exact Or.inl (List.mem_cons_of_mem a h2)
    | succ n =>
      rcases List.mem_cons.1 h with h2 | h2
      · exact Or.inl (h2 ▸ List.mem_cons_self a t)
      · rcases ih n v x h2 with h3 | h3
        · exact Or.inl (List.mem_cons_of_mem a h3)
        · exact Or.inr h3

theorem ofold_fc_inc (label nf : ℕ) :
    ∀ (tokens : List ℕ) (fc : List (List ℕ)),
    label < fc.length → (∀ row ∈ fc, row.length = nf) →
    (∀ t ∈ tokens, t < nf) →
    ∃ fc2, ofoldM (fun fc token => setAt2 fc label token 1) fc tokens
        = some fc2 ∧ fc2.length = fc.length ∧
        ∀ row ∈ fc2, row.length = nf := by
  intro tokens
  induction tokens with
  | nil => intro fc h1 h2 _; exact ⟨fc, rfl, rfl, h2⟩
  | cons a t ih =>
    intro fc h1 h2 h3
    have hrowmem : fc.getD label [] ∈ fc :=
      nth_mem _ _ _ (nth_lt [] _ _ h1)
    have hja : a < (fc.getD label []).length := by
      rw [h2 _ hrowmem]
      exact h3 a (List.mem_cons_self a t)
    simp only [ofoldM]
    rw [setAt2_eq_set fc label a 1 h1 hja, Option.some_bind]
    have h1b : label < (fc.set label
        ((fc.getD label []).set a ((fc.getD label []).getD a 0 + 1))).length := by
      simpa using h1
    have h2b : ∀ row ∈ fc.set label
        ((fc.getD label []).set a ((fc.getD label []).getD a 0 + 1)),
        row.length = nf := by
      intro row hrow
      rcases mem_set_subset _ _ _ _ hrow with h | h
      · exact h2 row h
      · rw [h]
        simp only [List.length_set]
        exact h2 _ hrowmem
    obtain ⟨fc2, hfold, hlen, hrows⟩ := ih _ h1b h2b
      (fun x hx => h3 x (List.mem_cons_of_mem a hx))
    refine ⟨fc2, hfold, ?_, hrows⟩
    rw [hlen]
    simp

theorem bern_fit_step (st : BernouliNB) (tokens : List ℕ) (label nf : ℕ)
    (hfc : st.feature_counts.length = st.target_counts.length)
    (hrows : ∀ row ∈ st.feature_counts, row.length = nf)
    (hlab : label < st.target_counts.length)
    (htok : ∀ t ∈ tokens, t < nf) :
    ∃ st2, st.fit tokens label = some st2 ∧
      st2.feature_counts.length = st2.target_counts.length ∧
      (∀ row ∈ st2.feature_counts, row.length = nf) ∧
      st2.target_counts.length = st.target_counts.length ∧
      st2.target_counts.sum = st.target_counts.sum + 1 ∧
      st2.total_samples = st.total_samples + 1 := by
  unfold BernouliNB.fit
  rw [if_pos hlab]
  obtain ⟨fc2, hfold, hlen, hrows2⟩ := ofold_fc_inc label nf tokens
    st.feature_counts (by rw [hfc]; exact hlab) hrows htok
  rw [hfold, Option.some_bind, setAt_eq_set _ _ _ hlab, Option.map_some']
  refine ⟨_, rfl, ?_, hrows2, by simp, ?_, rfl⟩
  · simp only [List.length_set]
    rw [hlen, hfc]
  · exact sum_set_add _ _ _ hlab

theorem ofold_mult_inc (target nf L : ℕ) (f : ℕ → ℕ) :
    ∀ (dtokens : List ℕ) (fc : List (List ℕ)) (lft : List ℕ),
    target < L → fc.length = L → (∀ row ∈ fc, row.length = nf) →
    lft.length = L → (∀ t ∈ dtokens, t < nf) →
    ∃ fc2 lft2,
      ofoldM (fun acc token =>
        (setAt2 acc.1 target token (f token)).bind fun fcx =>
          (setAt acc.2 target (f token)).map fun ltx => (fcx, ltx))
        (fc, lft) dtokens = some (fc2, lft2) ∧
      fc2.length = L ∧ (∀ row ∈ fc2, row.length = nf) ∧ lft2.length = L ∧
      (∀ l, l ≠ target →
        fc2.getD l [] = fc.getD l [] ∧ lft2.getD l 0 = lft.getD l 0) ∧
      lft2.getD target 0 + (fc.getD target []).sum
        = lft.getD target 0 + (fc2.getD target []).sum := by
  intro dtokens
  induction dtokens with
  | nil =>
    intro fc lft h1 h2 h3 h4 _
    exact ⟨fc, lft, rfl, h2, h3, h4, fun l _ => ⟨rfl, rfl⟩, by omega⟩
  | cons a t ih =>
    intro fc lft h1 h2 h3 h4 h5
    have htgt : target < fc.length := by omega
    have hrowmem : fc.getD target [] ∈ fc :=
      nth_mem _ _ _ (nth_lt [] _ _ htgt)
    have hja : a < (fc.getD target []).length := by
      rw [h3 _ hrowmem]
      exact h5 a (List.mem_cons_self a t)
    have htgt2 : target < lft.length := by omega
    simp only [ofoldM]
    rw [setAt2_eq_set fc target a (f a) htgt hja, Option.some_bind,
      setAt_eq_set lft target (f a) htgt2, Option.map_some',
      Option.some_bind]
    set row2 := (fc.getD target []).set a ((fc.getD target []).getD a 0 + f a)
      with hrow2
    have hfc1len : (fc.set target row2).length = L := by simpa using h2
    have hfc1rows : ∀ row ∈ fc.set target row2, row.length = nf := by
      intro row hrow
      rcases mem_set_subset _ _ _ _ hrow with h | h
      · exact h3 row h
      · rw [h, hrow2]
        simp only [List.length_set]
        exact h3 _ hrowmem
    have hlft1len : (lft.set target (lft.getD target 0 + f a)).length = L := by
      simpa using h4
    obtain ⟨fc2, lft2, hfold, hl2, hr2, hll2, hoff, hbal⟩ :=
      ih (fc.set target row2) (lft.set target (lft.getD target 0 + f a))
        h1 hfc1len hfc1rows hlft1len
        (fun x hx => h5 x (List.mem_cons_of_mem a hx))
    refine ⟨fc2, lft2, hfold, hl2, hr2, hll2, ?_, ?_⟩
    · intro l hl
      obtain ⟨ho1, ho2⟩ := hoff l hl
      constructor
      · rw [ho1, getD_set_ne [] fc l target row2 hl]
      · rw [ho2, getD_set_ne 0 lft l target _ hl]
    · have hg1 : (fc.set target row2).getD target [] = row2 :=
        getD_set_self [] fc target row2 htgt
      have hg2 : (lft.set target (lft.getD target 0 + f a)).getD target 0
          = lft.getD target 0 + f a := getD_set_self 0 lft target _ htgt2
      rw [hg1, hg2] at hbal
      have hrsum : row2.sum = (fc.getD target []).sum + f a :=
        sum_set_add _ a (f a) hja
      omega

theorem mult_fit_step (st : MultinomialNB) (tokens : List ℕ)
    (target nf : ℕ)
    (hfc : st.feature_counts.length = st.target_counts.length)
    (hrows : ∀ row ∈ st.feature_counts, row.length = nf)
    (hlft : st.label_feature_totals.length = st.target_counts.length)
    (hinv : ∀ l, l < st.target_counts.length →
      st.label_feature_totals.getD l 0 = (st.feature_counts.getD l []).sum)
    (hlab : target < st.target_counts.length)
    (htok : ∀ t ∈ tokens, t < nf) :
    ∃ st2, st.fit tokens target = some st2 ∧
      st2.feature_counts.length = st2.target_counts.length ∧
      (∀ row ∈ st2.feature_counts, row.length = nf) ∧
      st2.label_feature_totals.length = st2.target_counts.length ∧
      (∀ l, l < st2.target_counts.length →
        st2.label_feature_totals.getD l 0
          = (st2.feature_counts.getD l []).sum) ∧
      st2.target_counts.length = st.target_counts.length ∧
      st2.target_counts.sum = st.target_counts.sum + 1 ∧
      st2.total_samples = st.total_samples + 1 := by
  unfold MultinomialNB.fit
  rw [if_pos hlab]
  obtain ⟨fc2, lft2, hfold, hl2, hr2, hll2, hoff, hbal⟩ :=
    ofold_mult_inc target nf st.target_counts.length (tokens.count ·)
      tokens.dedup st.feature_counts st.label_feature_totals hlab hfc hrows
      hlft (fun t ht => htok t (List.mem_dedup.1 ht))
  rw [hfold, Option.some_bind, setAt_eq_set _ _ _ hlab, Option.map_some']
  refine ⟨_, rfl, ?_, hr2, ?_, ?_, by simp, ?_, rfl⟩
  · simp only [List.length_set]
    rw [hl2]
  · simp only [List.length_set]
    rw [hll2]
  · intro l hl
    simp only [List.length_set] at hl
    show lft2.getD l 0 = (fc2.getD l []).sum
    by_cases hlt : l = target
    · subst hlt
      have := hinv l hl
      omega
    · obtain ⟨ho1, ho2⟩ := hoff l hlt
      rw [ho1, ho2]
      exact hinv l hl
  · exact sum_set_add _ _ _ hlab

theorem bern_fits_inv (nf : ℕ) :
    ∀ (calls : List (List ℕ × ℕ)) (st : BernouliNB),
    st.feature_counts.length = st.target_counts.length →
    (∀ row ∈ st.feature_counts, row.length = nf) →
    (∀ c ∈ calls, c.2 < st.target_counts.length ∧ ∀ t ∈ c.1, t < nf) →
    ∃ st2, ofoldM (fun s c => s.fit c.1 c.2) st calls = some st2 ∧
      st2.target_counts.sum = st.target_counts.sum + calls.length ∧
      st2.total_samples = st.total_samples + calls.length := by
  intro calls
  induction calls with
  | nil => intro st h1 h2 _; exact ⟨st, rfl, by simp, by simp⟩
  | cons c cs ih =>
    intro st h1 h2 h3
    obtain ⟨hc2, hct⟩ := h3 c (List.mem_cons_self c cs)
    obtain ⟨st1, hfit, hi1, hi2, hi3, hi4, hi5⟩ :=
      bern_fit_step st c.1 c.2 nf h1 h2 hc2 hct
    simp only [ofoldM, hfit, Option.some_bind]
    obtain ⟨st2, hfold, hs1, hs2⟩ := ih st1 hi1 hi2
      (fun x hx => ⟨by rw [hi3]; exact (h3 x (List.mem_cons_of_mem c hx)).1,
        (h3 x (List.mem_cons_of_mem c hx)).2⟩)
    refine ⟨st2, hfold, ?_, ?_⟩
    · rw [hs1, hi4]
      simp only [List.length_cons]
      omega
    · rw [hs2, hi5]
      simp only [List.length_cons]
      omega

theorem mult_fits_inv (nf : ℕ) :
    ∀ (calls : List (List ℕ × ℕ)) (st : MultinomialNB),
    st.feature_counts.length = st.target_counts.length →
    (∀ row ∈ st.feature_counts, row.length = nf) →
    st.label_feature_totals.length = st.target_counts.length →
    (∀ l, l < st.target_counts.length →
      st.label_feature_totals.getD l 0
        = (st.feature_counts.getD l []).sum) →
    (∀ c ∈ calls, c.2 < st.target_counts.length ∧ ∀ t ∈ c.1, t < nf) →
    ∃ st2, ofoldM (fun s c => s.fit c.1 c.2) st calls = some st2 ∧
      st2.target_counts.sum = st.target_counts.sum + calls.length ∧
      st2.total_samples = st.total_samples + calls.length ∧
      st2.target_counts.length = st.target_counts.length ∧
      ∀ l, l < st2.target_counts.length →
        st2.label_feature_totals.getD l 0
          = (st2.feature_counts.getD l []).sum := by
  intro calls
  induction calls with
  | nil =>
    intro st h1 h2 h3 h4 _
    exact ⟨st, rfl, by simp, by simp, rfl, h4⟩
  | cons c cs ih =>
    intro st h1 h2 h3 h4 h5
    obtain ⟨hc2, hct⟩ := h5 c (List.mem_cons_self c cs)
    obtain ⟨st1, hfit, hi1, hi2, hi3, hi4, hi5, hi6, hi7⟩ :=
      mult_fit_step st c.1 c.2 nf h1 h2 h3 h4 hc2 hct
    simp only [ofoldM, hfit, Option.some_bind]
    obtain ⟨st2, hfold, hs1, hs2, hs3, hs4⟩ := ih st1 hi1 hi2 hi3 hi4
      (fun x hx => ⟨by rw [hi5]; exact (h5 x (List.mem_cons_of_mem c hx)).1,
        (h5 x (List.mem_cons_of_mem c hx)).2⟩)
    refine ⟨st2, hfold, ?_, ?_, ?_, hs4⟩
    · rw [hs1, hi6]
      simp only [List.length_cons]
      omega
    · rw [hs2, hi7]
      simp only [List.length_cons]
      omega
    · rw [hs3, hi5]

theorem getD_ge {α : Type} (d : α) :
    ∀ (l : List α) (n : ℕ), l.length ≤ n → l.getD n d = d := by
  intro l
  induction l with
  | nil => intro n _; simp
  | cons a t ih =>
    intro n h
    cases n with
    | zero => simp at h
    | succ m =>
      simp only [List.length_cons, Nat.succ_le_succ_iff] at h
      simpa using ih m h

theorem getD_replicate_nil_sum (L nf l : ℕ) :
    ((List.replicate L (List.replicate nf (0 : ℕ))).getD l []).sum = 0 := by
  rcases Nat.lt_or_ge l L with hlt | hge
  · have hmem := nth_mem _ _ _ (nth_lt []
      (List.replicate L (List.replicate nf (0 : ℕ))) l (by simpa using hlt))
    rw [List.eq_of_mem_replicate hmem, List.sum_replicate]
    simp
  · rw [getD_ge [] _ l (by simpa using hge)]
    rfl

theorem getD_replicate_zero : ∀ (n l : ℕ),
    (List.replicate n (0 : ℕ)).getD l 0 = 0 := by
  intro n
  induction n with
  | zero => intro l; simp
  | succ m ih =>
    intro l
    cases l with
    | zero => rfl
    | succ l2 =>
      rw [List.replicate, List.getD_cons_succ]
      exact ih l2

/-- C7 (confirmed): after any sequence of n fit calls from a fresh
classifier, with labels in range and token ids within the feature
width, target_counts sums to n and total_samples equals n; for the
Multinomial variant label_feature_totals additionally equals the
per-label feature-count row sums. -/
theorem claim_C7_count_conservation :
    (∀ (nf L : ℕ) (lf : ℝ) (calls : List (List ℕ × ℕ)),
      (∀ c ∈ calls, c.2 < L ∧ ∀ t ∈ c.1, t < nf) →
      ∃ st : BernouliNB,
        ofoldM (fun s c => s.fit c.1 c.2) (BernouliNB.new nf L lf) calls
          = some st ∧
        st.target_counts.sum = calls.length ∧
        st.total_samples = calls.length) ∧
    (∀ (nf L : ℕ) (lf : ℝ) (calls : List (List ℕ × ℕ)),
      (∀ c ∈ calls, c.2 < L ∧ ∀ t ∈ c.1, t < nf) →
      ∃ st : MultinomialNB,
        ofoldM (fun s c => s.fit c.1 c.2) (MultinomialNB.new nf L lf) calls
          = some st ∧
        st.target_counts.sum = calls.length ∧
        st.total_samples = calls.length ∧
        ∀ l, l < L → st.label_feature_totals.getD l 0
          = (st.feature_counts.getD l []).sum) := by
  constructor
  · intro nf L lf calls hcalls
    obtain ⟨st, hfold, h1, h2⟩ := bern_fits_inv nf calls
      (BernouliNB.new nf L lf) (by simp [BernouliNB.new])
      (fun row hrow => by
        rw [List.eq_of_mem_replicate hrow]
        simp)
      (fun c hc => by
        simpa [BernouliNB.new] using hcalls c hc)
    refine ⟨st, hfold, ?_, ?_⟩
    · rw [h1]
      simp [BernouliNB.new, List.sum_replicate]
    · rw [h2]
      simp [BernouliNB.new]
  · intro nf L lf calls hcalls
    obtain ⟨st, hfold, h1, h2, h3, h4⟩ := mult_fits_inv nf calls
      (MultinomialNB.new nf L lf) (by simp [MultinomialNB.new])
      (fun row hrow => by
        rw [List.eq_of_mem_replicate hrow]
        simp)
      (by simp [MultinomialNB.new])
      (fun l hl => by
        simp only [MultinomialNB.new]
        rw [getD_replicate_zero]
        exact (getD_replicate_nil_sum L nf l).symm)
      (fun c hc => by
        simpa [MultinomialNB.new] using hcalls c hc)
    refine ⟨st, hfold, ?_, ?_, ?_⟩
    · rw [h1]
      simp [MultinomialNB.new, List.sum_replicate]
    · rw [h2]
      simp [MultinomialNB.new]
    · intro l hl
      apply h4
      rw [h3]
      simpa [MultinomialNB.new] using hl

theorem claim_C7_count_conservation_witness :
    ofoldM (fun s c => BernouliNB.fit s c.1 c.2) (BernouliNB.new 3 2 1)
      [([0, 1], 1), ([2], 0)] = some stB2 ∧
    stB2.target_counts.sum = 2 ∧ stB2.total_samples = 2 ∧
    ofoldM (fun s c => MultinomialNB.fit s c.1 c.2) (MultinomialNB.new 3 2 1)
      [([0, 1, 1], 1), ([2], 0)] = some stM2 ∧
    stM2.target_counts.sum = 2 ∧ stM2.total_samples = 2 ∧
    stM2.label_feature_totals.getD 1 0
      = (stM2.feature_counts.getD 1 []).sum := by
  have hbfold : ofoldM (fun s c => BernouliNB.fit s c.1 c.2)
      (BernouliNB.new 3 2 1) [([0, 1], 1), ([2], 0)] = some stB2 := rfl
  have hmfold : ofoldM (fun s c => MultinomialNB.fit s c.1 c.2)
      (MultinomialNB.new 3 2 1) [([0, 1, 1], 1), ([2], 0)] = some stM2 := rfl
  obtain ⟨stb, hb, hbsum, hbtot⟩ := claim_C7_count_conservation.1 3 2 1
    [([0, 1], 1), ([2], 0)] (by decide)
  obtain ⟨stm, hm, hmsum, hmtot, hmlft⟩ := claim_C7_count_conservation.2 3 2 1
    [([0, 1, 1], 1), ([2], 0)] (by decide)
  have hbeq : stB2 = stb := by
    rw [hbfold] at hb
    exact Option.some.inj hb
  have hmeq : stM2 = stm := by
    rw [hmfold] at hm
    exact Option.some.inj hm
  refine ⟨hbfold, ?_, ?_, hmfold, ?_, ?_, ?_⟩
  · rw [hbeq]; simpa using hbsum
  · rw [hbeq]; simpa using hbtot
  · rw [hmeq]; simpa using hmsum
  · rw [hmeq]; simpa using hmtot
  · rw [hmeq]
    exact hmlft 1 (by omega)

theorem ofold_fc_none (label nf : ℕ) :
    ∀ (tokens : List ℕ) (fc : List (List ℕ)),
    label < fc.length → (∀ row ∈ fc, row.length = nf) →
    (∃ t ∈ tokens, nf ≤ t) →
    ofoldM (fun fc token => setAt2 fc label token 1) fc tokens = none := by
  intro tokens
  induction tokens with
  | nil => intro fc _ _ h; simp at h
  | cons a t ih =>
    intro fc h1 h2 h3
    have hrowmem : fc.getD label [] ∈ fc :=
      nth_mem _ _ _ (nth_lt [] _ _ h1)
    by_cases ha : nf ≤ a
    · have hnone : setAt2 fc label a 1 = none :=
        setAt2_none_of_ge_inner fc label a 1 h1 (by rw [h2 _ hrowmem]; exact ha)
      simp [ofoldM, hnone]
    · have hja : a < (fc.getD label []).length := by
        rw [h2 _ hrowmem]; omega
      simp only [ofoldM]
      rw [setAt2_eq_set fc label a 1 h1 hja, Option.some_bind]
      obtain ⟨t0, ht0, hge0⟩ := h3
      rcases List.mem_cons.1 ht0 with h | h
      · subst h; omega
      · apply ih
        · simpa using h1
        · intro row hrow
          rcases mem_set_subset _ _ _ _ hrow with hr | hr
          · exact h2 row hr
          · rw [hr]
            simp only [List.length_set]
            exact h2 _ hrowmem
        · exact ⟨t0, h, hge0⟩

theorem ofold_mult_none (target nf : ℕ) (f : ℕ → ℕ) :
    ∀ (dtokens : List ℕ) (fc : List (List ℕ)) (lft : List ℕ),
    target < fc.length → (∀ row ∈ fc, row.length = nf) →
    target < lft.length →
    (∃ t ∈ dtokens, nf ≤ t) →
    ofoldM (fun acc token =>
        (setAt2 acc.1 target token (f token)).bind fun fcx =>
          (setAt acc.2 target (f token)).map fun ltx => (fcx, ltx))
      (fc, lft) dtokens = none := by
  intro dtokens
  induction dtokens with
  | nil => intro fc lft _ _ _ h; simp at h
  | cons a t ih =>
    intro fc lft h1 h2 h4 h3
    have hrowmem : fc.getD target [] ∈ fc :=
      nth_mem _ _ _ (nth_lt [] _ _ h1)
    by_cases ha : nf ≤ a
    · have hnone : setAt2 fc target a (f a) = none :=
        setAt2_none_of_ge_inner fc target a (f a) h1
          (by rw [h2 _ hrowmem]; exact ha)
      simp [ofoldM, hnone]
    · have hja : a < (fc.getD target []).length := by
        rw [h2 _ hrowmem]; omega
      simp only [ofoldM]
      rw [setAt2_eq_set fc target a (f a) h1 hja, Option.some_bind,
        setAt_eq_set lft target (f a) h4, Option.map_some',
        Option.some_bind]
      obtain ⟨t0, ht0, hge0⟩ := h3
      rcases List.mem_cons.1 ht0 with h | h
      · subst h; omega
      · apply ih
        · simpa using h1
        · intro row hrow
          rcases mem_set_subset _ _ _ _ hrow with hr | hr
          · exact h2 row hr
          · rw [hr]
            simp only [List.length_set]
            exact h2 _ hrowmem
        · simpa using h4
        · exact ⟨t0, h, hge0⟩

/-- C10 (confirmed): for both classifier variants, fit fails (an
out-of-bounds index into the feature-count table, modelled by none)
whenever the token sequence contains an id beyond the feature-table
width fixed at construction: out-of-range ids are not silently ignored
at training time. -/
theorem claim_C10_fit_oov_panics :
    (∀ (st : BernouliNB) (tokens : List ℕ) (label nf : ℕ),
      st.feature_counts.length = st.target_counts.length →
      (∀ row ∈ st.feature_counts, row.length = nf) →
      (∃ t ∈ tokens, nf ≤ t) →
      st.fit tokens label = none) ∧
    (∀ (st : MultinomialNB) (tokens : List ℕ) (label nf : ℕ),
      st.feature_counts.length = st.target_counts.length →
      (∀ row ∈ st.feature_counts, row.length = nf) →
      st.label_feature_totals.length = st.target_counts.length →
      (∃ t ∈ tokens, nf ≤ t) →
      st.fit tokens label = none) := by
  constructor
  · intro st tokens label nf hfc hrows hoob
    unfold BernouliNB.fit
    by_cases hlab : label < st.target_counts.length
    · rw [if_pos hlab,
        ofold_fc_none label nf tokens st.feature_counts
          (by rw [hfc]; exact hlab) hrows hoob]
      rfl
    · rw [if_neg hlab]
  · intro st tokens label nf hfc hrows hlft hoob
    unfold MultinomialNB.fit
    by_cases hlab : label < st.target_counts.length
    · rw [if_pos hlab,
        ofold_mult_none label nf (tokens.count ·) tokens.dedup
          st.feature_counts st.label_feature_totals
          (by rw [hfc]; exact hlab) hrows (by rw [hlft]; exact hlab)
          (by
            obtain ⟨t0, ht0, hge⟩ := hoob
            exact ⟨t0, List.mem_dedup.2 ht0, hge⟩)]
      rfl
    · rw [if_neg hlab]

theorem claim_C10_fit_oov_panics_witness :
    (BernouliNB.new 1 2 1).fit [1] 0 = none ∧
    (MultinomialNB.new 1 2 1).fit [1] 0 = none := by
  constructor
  · exact claim_C10_fit_oov_panics.1 (BernouliNB.new 1 2 1) [1] 0 1
      rfl (by decide) (by decide)
  · exact claim_C10_fit_oov_panics.2 (MultinomialNB.new 1 2 1) [1] 0 1
      rfl (by decide) rfl (by decide)

/-- metrics::confusion_matrix: asserts equal lengths (none models the
panic), then increments the entry at row actual, column predicted for
every pair. -/
def confusion_matrix (predicted real : List ℕ) (num_classes : ℕ) :
    Option (List (List ℕ)) :=
  if predicted.length = real.length then
    ofoldM (fun m pr => setAt2 m pr.2 pr.1 1)
      (List.replicate num_classes (List.replicate num_classes 0))
      (predicted.zip real)
  else none

theorem ofold_cm_inv (nc : ℕ) :
    ∀ (pairs : List (ℕ × ℕ)) (m : List (List ℕ)),
    m.length = nc → (∀ row ∈ m, row.length = nc) →
    (∀ p ∈ pairs, p.1 < nc ∧ p.2 < nc) →
    ∃ m2, ofoldM (fun m pr => setAt2 m pr.2 pr.1 1) m pairs = some m2 ∧
      m2.length = nc ∧ (∀ row ∈ m2, row.length = nc) ∧
      (m2.map List.sum).sum = (m.map List.sum).sum + pairs.length := by
  intro pairs
  induction pairs with
  | nil => intro m h1 h2 _; exact ⟨m, rfl, h1, h2, by simp⟩
  | cons p ps ih =>
    intro m h1 h2 h3
    obtain ⟨hp1, hp2⟩ := h3 p (List.mem_cons_self p ps)
    have hrow : p.2 < m.length := by omega
    have hrowmem : m.getD p.2 [] ∈ m := nth_mem _ _ _ (nth_lt [] _ _ hrow)
    have hcol : p.1 < (m.getD p.2 []).length := by
      rw [h2 _ hrowmem]; exact hp1
    simp only [ofoldM]
    rw [setAt2_eq_set m p.2 p.1 1 hrow hcol, Option.some_bind]
    set row2 := (m.getD p.2 []).set p.1 ((m.getD p.2 []).getD p.1 0 + 1)
      with hrow2
    have hm1len : (m.set p.2 row2).length = nc := by simpa using h1
    have hm1rows : ∀ row ∈ m.set p.2 row2, row.length = nc := by
      intro row hr
      rcases mem_set_subset _ _ _ _ hr with h | h
      · exact h2 row h
      · rw [h, hrow2]
        simp only [List.length_set]
        exact h2 _ hrowmem
    obtain ⟨m2, hfold, hl2, hr2, hs2⟩ := ih (m.set p.2 row2) hm1len hm1rows
      (fun x hx => h3 x (List.mem_cons_of_mem p hx))
    refine ⟨m2, hfold, hl2, hr2, ?_⟩
    rw [hs2]
    have htot := total_sum_set m p.2 row2 hrow
    have hrsum : row2.sum = (m.getD p.2 []).sum + 1 :=
      sum_set_add _ p.1 1 hcol
    simp only [List.length_cons]
    omega

/-- C8 (confirmed): with equal-length label sequences whose labels are
all below num_classes, the entries of the confusion matrix sum to the
number of pairs supplied; with different lengths the computation fails
(the length assert panics, modelled by none). -/
theorem claim_C8_confusion_matrix_conservation :
    (∀ (predicted real : List ℕ) (nc : ℕ),
      predicted.length = real.length →
      (∀ x ∈ predicted, x < nc) → (∀ x ∈ real, x < nc) →
      ∃ m, confusion_matrix predicted real nc = some m ∧
        (m.map List.sum).sum = predicted.length) ∧
    (∀ (predicted real : List ℕ) (nc : ℕ),
      predicted.length ≠ real.length →
      confusion_matrix predicted real nc = none) := by
  constructor
  · intro predicted real nc hlen hpred hreal
    unfold confusion_matrix
    rw [if_pos hlen]
    obtain ⟨m2, hfold, hl2, hr2, hs2⟩ := ofold_cm_inv nc
      (predicted.zip real)
      (List.replicate nc (List.replicate nc 0))
      (by simp)
      (fun row hrow => by rw [List.eq_of_mem_replicate hrow]; simp)
      (fun p hp => ⟨hpred p.1 (List.of_mem_zip hp).1,
        hreal p.2 (List.of_mem_zip hp).2⟩)
    refine ⟨m2, hfold, ?_⟩
    rw [hs2]
    have hz : (predicted.zip real).length = predicted.length := by
      rw [List.length_zip, hlen, Nat.min_self]
    rw [hz]
    have : ((List.replicate nc (List.replicate nc (0 : ℕ))).map
        List.sum).sum = 0 := by
      rw [List.map_replicate, List.sum_replicate]
      simp
    omega
  · intro predicted real nc hlen
    unfold confusion_matrix
    rw [if_neg hlen]

theorem claim_C8_confusion_matrix_conservation_witness :
    confusion_matrix [0, 1, 1, 0] [0, 1, 0, 0] 2 = some [[2, 1], [0, 1]] ∧
    (([[2, 1], [0, 1]] : List (List ℕ)).map List.sum).sum = 4 ∧
    confusion_matrix [0] [] 2 = none := by
  have hcm : confusion_matrix [0, 1, 1, 0] [0, 1, 0, 0] 2
      = some [[2, 1], [0, 1]] := rfl
  obtain ⟨m, hm, hsum⟩ := claim_C8_confusion_matrix_conservation.1
    [0, 1, 1, 0] [0, 1, 0, 0] 2 rfl (by decide) (by decide)
  have heq : [[2, 1], [0, 1]] = m := by
    rw [hcm] at hm
    exact Option.some.inj hm
  refine ⟨hcm, ?_,
    claim_C8_confusion_matrix_conservation.2 [0] [] 2 (by decide)⟩
  rw [heq]
  simpa using hsum

/-- ConfusionMatrix::accuracy: the sum of diagonal entries divided by
the sum of all entries.  Reading a diagonal entry of a too-short row
is a panic (none); a zero total makes the division produce the NaN
value of floating point, modelled by none as well (the single
consistent degenerate result). -/
noncomputable def accuracy (m : List (List ℕ)) : Option ℝ :=
  (omapM (fun ir => nth ir.2 ir.1) (enumL 0 m)).bind fun (diag : List ℕ) =>
    if (m.map List.sum).sum = 0 then none
    else some (((diag.sum : ℕ) : ℝ) / (((m.map List.sum).sum : ℕ) : ℝ))

theorem accuracy_diag (m : List (List ℕ))
    (hsq : ∀ row ∈ m, row.length = m.length) :
    omapM (fun ir => nth ir.2 ir.1) (enumL 0 m)
      = some ((enumL 0 m).map fun ir => ir.2.getD ir.1 0) := by
  apply omapM_eq_map
  intro ir hir
  obtain ⟨h0, hlt, heq⟩ := mem_enumL [] m 0 ir hir
  simp only [Nat.sub_zero] at hlt heq
  have hmem : ir.2 ∈ m := by
    rw [heq]
    exact nth_mem _ _ _ (nth_lt [] m ir.1 hlt)
  exact nth_lt 0 ir.2 ir.1 (by rw [hsq ir.2 hmem]; exact hlt)

theorem getD_le_sum : ∀ (l : List ℕ) (j : ℕ), l.getD j 0 ≤ l.sum := by
  intro l
  induction l with
  | nil => intro j; simp
  | cons a t ih =>
    intro j
    cases j with
    | zero => simp
    | succ n =>
      simp only [List.getD_cons_succ, List.sum_cons]
      have := ih n
      omega

theorem diag_sum_le : ∀ (m : List (List ℕ)) (k : ℕ),
    ((enumL k m).map fun ir => ir.2.getD ir.1 0).sum
      ≤ (m.map List.sum).sum := by
  intro m
  induction m with
  | nil => intro k; simp [enumL]
  | cons row t ih =>
    intro k
    simp only [enumL, List.map_cons, List.sum_cons]
    have h1 := getD_le_sum row k
    have h2 := ih (k + 1)
    omega

theorem sum_eq_zero_of_getD : ∀ l : List ℕ,
    (∀ j, j < l.length → l.getD j 0 = 0) → l.sum = 0 := by
  intro l
  induction l with
  | nil => intro _; rfl
  | cons a t ih =>
    intro h
    have ha := h 0 (by simp)
    simp only [List.getD_cons_zero] at ha
    simp only [List.sum_cons, ha, Nat.zero_add]
    exact ih fun j hj => h (j + 1) (by simpa using hj)

theorem sum_eq_getD_single : ∀ (l : List ℕ) (i : ℕ), i < l.length →
    (∀ j, j < l.length → j ≠ i → l.getD j 0 = 0) →
    l.sum = l.getD i 0 := by
  intro l
  induction l with
  | nil => intro i hi _; simp at hi
  | cons a t ih =>
    intro i hi h
    cases i with
    | zero =>
      simp only [List.sum_cons, List.getD_cons_zero]
      have : t.sum = 0 := by
        apply sum_eq_zero_of_getD
        intro j hj
        have := h (j + 1) (by simpa using hj) (by omega)
        simpa using this
      omega
    | succ n =>
      simp only [List.length_cons, Nat.succ_lt_succ_iff] at hi
      have ha := h 0 (by simp) (by omega)
      simp only [List.getD_cons_zero] at ha
      simp only [List.sum_cons, List.getD_cons_succ, ha, Nat.zero_add]
      exact ih n hi fun j hj hji =>
        by simpa using h (j + 1) (by simpa using hj) (by omega)

theorem diag_sum_eq_total : ∀ (m : List (List ℕ)) (k : ℕ),
    (∀ ir ∈ enumL k m, ir.1 < ir.2.length) →
    (∀ ir ∈ enumL k m, ∀ j, j < ir.2.length → j ≠ ir.1 →
      ir.2.getD j 0 = 0) →
    ((enumL k m).map fun ir => ir.2.getD ir.1 0).sum
      = (m.map List.sum).sum := by
  intro m
  induction m with
  | nil => intro k _ _; simp [enumL]
  | cons row t ih =>
    intro k hlt hoff
    simp only [enumL, List.map_cons, List.sum_cons]
    have hhead : row.sum = row.getD k 0 :=
      sum_eq_getD_single row k
        (hlt (k, row) (by simp [enumL]))
        (fun j hj hji => hoff (k, row) (by simp [enumL]) j hj hji)
    rw [ih (k + 1)
        (fun ir hir => hlt ir (by simp [enumL, hir]))
        (fun ir hir => hoff ir (by simp [enumL, hir])),
      hhead]

/-- C9 (confirmed): accuracy of a square confusion matrix is in the
unit interval whenever defined; it equals 1 when all mass lies on the
diagonal, 0 when no diagonal entry is populated (with a nonzero
total), and on a zero total it is the single consistent degenerate
result (the floating-point NaN, modelled by none). -/
theorem claim_C9_accuracy_bounds (m : List (List ℕ))
    (hsq : ∀ row ∈ m, row.length = m.length) :
    ((m.map List.sum).sum = 0 → accuracy m = none) ∧
    (∀ r, accuracy m = some r → 0 ≤ r ∧ r ≤ 1) ∧
    ((m.map List.sum).sum ≠ 0 →
      (∀ i, i < m.length → ∀ j, j < m.length → j ≠ i →
        (m.getD i []).getD j 0 = 0) →
      accuracy m = some 1) ∧
    ((m.map List.sum).sum ≠ 0 →
      (∀ i, i < m.length → (m.getD i []).getD i 0 = 0) →
      accuracy m = some 0) := by
  have hdiagmem : ∀ ir ∈ enumL 0 m, ir.2 = m.getD ir.1 [] ∧ ir.1 < m.length := by
    intro ir hir
    obtain ⟨h0, hlt, heq⟩ := mem_enumL [] m 0 ir hir
    simp only [Nat.sub_zero] at hlt heq
    exact ⟨heq, hlt⟩
  refine ⟨?_, ?_, ?_, ?_⟩
  · intro h0
    unfold accuracy
    rw [accuracy_diag m hsq, Option.some_bind, if_pos h0]
  · intro r hr
    unfold accuracy at hr
    rw [accuracy_diag m hsq, Option.some_bind] at hr
    by_cases h0 : (m.map List.sum).sum = 0
    · rw [if_pos h0] at hr; cases hr
    · rw [if_neg h0] at hr
      have hr2 := Option.some.inj hr
      subst hr2
      have hle := diag_sum_le m 0
      have hpos : (0 : ℝ) < (((m.map List.sum).sum : ℕ) : ℝ) := by
        have : 0 < (m.map List.sum).sum := Nat.pos_of_ne_zero h0
        exact_mod_cast this
      constructor
      · apply div_nonneg _ (le_of_lt hpos)
        exact_mod_cast Nat.zero_le _
      · rw [div_le_one hpos]
        exact_mod_cast hle
  · intro h0 hdiag
    unfold accuracy
    rw [accuracy_diag m hsq, Option.some_bind, if_neg h0]
    have heq : ((enumL 0 m).map fun ir => ir.2.getD ir.1 0).sum
        = (m.map List.sum).sum := by
      apply diag_sum_eq_total
      · intro ir hir
        obtain ⟨heq2, hlt⟩ := hdiagmem ir hir
        rw [heq2]
        have hmem : m.getD ir.1 [] ∈ m := nth_mem _ _ _ (nth_lt [] m _ hlt)
        rw [hsq _ hmem]
        exact hlt
      · intro ir hir j hj hji
        obtain ⟨heq2, hlt⟩ := hdiagmem ir hir
        rw [heq2]
        apply hdiag ir.1 hlt j _ hji
        rw [heq2] at hj
        have hmem : m.getD ir.1 [] ∈ m := nth_mem _ _ _ (nth_lt [] m _ hlt)
        rw [hsq _ hmem] at hj
        exact hj
    rw [heq]
    congr 1
    apply div_self
    have : 0 < (m.map List.sum).sum := Nat.pos_of_ne_zero h0
    exact_mod_cast Nat.pos_iff_ne_zero.1 this
  · intro h0 hdiag
    unfold accuracy
    rw [accuracy_diag m hsq, Option.some_bind, if_neg h0]
    have heq : ((enumL 0 m).map fun ir => ir.2.getD ir.1 0).sum = 0 := by
      apply List.sum_eq_zero
      intro x hx
      obtain ⟨ir, hir, hxv⟩ := List.mem_map.1 hx
      obtain ⟨heq2, hlt⟩ := hdiagmem ir hir
      rw [← hxv, heq2]
      exact hdiag ir.1 hlt
    rw [heq]
    norm_num

theorem claim_C9_accuracy_bounds_witness :
    accuracy [[2, 1], [0, 1]] = some ((3 : ℝ) / 4) ∧
    0 ≤ (3 : ℝ) / 4 ∧ (3 : ℝ) / 4 ≤ 1 := by
  have hacc : accuracy [[2, 1], [0, 1]] = some ((3 : ℝ) / 4) := by
    unfold accuracy
    rw [show omapM (fun ir => nth ir.2 ir.1)
        (enumL 0 ([[2, 1], [0, 1]] : List (List ℕ))) = some [2, 1]
      from rfl, Option.some_bind, if_neg (by decide)]
    norm_num
  have hb := (claim_C9_accuracy_bounds [[2, 1], [0, 1]]
    (by decide)).2.1 ((3 : ℝ) / 4) hacc
  exact ⟨hacc, hb.1, hb.2⟩
